import Mathlib

/-!
# Bitswap wire message (exchange/bitswap/message/message.go)

A shallow embedding of the `impl` message store, its mutators, and the
conversion to and from the protobuf form, followed by the properties
established about them.

Modelling conventions

* Go `string` and `[]byte` values are byte lists (`Bytes`).
* Go `int` priorities are mathematical integers; the `int32(...)` conversion
  of `ToProto` is the explicit wrap-around `int32`.
* A Go map is an association list whose list order stands for the (unspecified)
  iteration order of `range`.  Statements quantify over every state that
  satisfies the representation invariant `Inv`, hence over every order.
* `message.Entry` embeds a pointer `*wantlist.Entry`.  The cells these pointers
  refer to live in `impl.heap`; a pointer is the index of its cell.  A slice
  returned by `Wantlist()` holds the same pointers as the map.
* The external go-cid library and the block hashing of `blocks.NewBlock` are
  parameters (`CidLib`).
* The length-delimited reader used by `FromNet` is a state (`DelimitedReader`)
  passed through `ReadMsg`; `inet.MessageSizeMax` and the protobuf decoding of a
  payload are parameters (`NetEnv`).
-/

namespace Bitswap

/-- Byte strings: Go `string` and `[]byte`. -/
abbrev Bytes := List UInt8

/-- The part of the go-cid library (and of the content hashing behind
`blocks.NewBlock`) that message.go relies on.  `Cast` is `cid.Cast`, which parses
key bytes and may fail with an error text; `KeyString` is `(*Cid).KeyString`;
`Sum` derives the ContentID of a raw payload. -/
structure CidLib where
  Cid : Type
  KeyString : Cid → Bytes
  Cast : Bytes → Except String Cid
  Sum : Bytes → Cid

namespace wantlist

/-- The cell type `wantlist.Entry` (fields used by message.go). -/
structure Entry (L : CidLib) where
  Cid : L.Cid
  Priority : Int

end wantlist

/-- The struct `message.Entry`: an embedded pointer `*wantlist.Entry` (the index of
the cell in the heap, field `ptr`) and the `Cancel` flag, which is stored by value. -/
structure Entry where
  ptr : Nat
  Cancel : Bool
deriving DecidableEq, Repr

namespace blocks

/-- Modelled from the spec: the `blocks.Block` interface of the repository's blocks
package, a raw payload together with its ContentID (`RawData()` and `Cid()`). -/
structure Block (L : CidLib) where
  RawData : Bytes
  Cid : L.Cid

/-- Modelled from the spec: `blocks.NewBlock` constructs a Block by hashing the raw
bytes into a fresh ContentID. -/
def NewBlock {L : CidLib} (d : Bytes) : Block L :=
  { RawData := d, Cid := L.Sum d }

end blocks

/-- Go map read `v, ok := m[k]`. -/
def mapGet {V : Type} (k : Bytes) : List (Bytes × V) → Option V
  | [] => none
  | (k', v) :: r => if k' = k then some v else mapGet k r

/-- Go map write `m[k] = v`: replaces the value of a present key, inserts otherwise. -/
def mapSet {V : Type} (k : Bytes) (v : V) : List (Bytes × V) → List (Bytes × V)
  | [] => [(k, v)]
  | (k', v') :: r => if k' = k then (k, v) :: r else (k', v') :: mapSet k v r

/-- Go map removal `delete(m, k)`. -/
def mapDelete {V : Type} (k : Bytes) (m : List (Bytes × V)) : List (Bytes × V) :=
  m.filter (fun kv => !decide (kv.1 = k))

/-- The assignment `e.Priority = priority` through the pointer held by `e`. -/
def storePriority {L : CidLib} (h : List (wantlist.Entry L)) (p : Nat) (priority : Int) :
    List (wantlist.Entry L) :=
  match h[p]? with
  | some w => h.set p { w with Priority := priority }
  | none => h

/-- The struct `impl`, together with the heap of `wantlist.Entry` cells that its
entries (and every slice returned by `Wantlist()`) point into. -/
structure impl (L : CidLib) where
  full : Bool
  wantlist : List (Bytes × Entry)
  blocks : List (Bytes × Bitswap.blocks.Block L)
  heap : List (Bitswap.wantlist.Entry L)

/-- The constructor `newMsg`. -/
def newMsg {L : CidLib} (full : Bool) : impl L :=
  { blocks := [], wantlist := [], full := full, heap := [] }

/-- The constructor `New`. -/
def New {L : CidLib} (full : Bool) : impl L := newMsg full

/-- The method `Full`. -/
def Full {L : CidLib} (m : impl L) : Bool := m.full

/-- The method `Empty`. -/
def Empty {L : CidLib} (m : impl L) : Bool :=
  m.blocks.length == 0 && m.wantlist.length == 0

/-- The method `Wantlist`: the stored `Entry` structs (pointer and flag), copied
into a fresh slice. -/
def Wantlist {L : CidLib} (m : impl L) : List Entry :=
  m.wantlist.map Prod.snd

/-- The method `Blocks`. -/
def Blocks {L : CidLib} (m : impl L) : List (blocks.Block L) :=
  m.blocks.map Prod.snd

/-- The method `addEntry`.  When the key is present, `e` is a copy of the map value:
`e.Priority = priority` writes through the embedded pointer into the shared cell,
while `e.Cancel = cancel` only changes the local copy, which is then dropped. -/
def addEntry {L : CidLib} (m : impl L) (c : L.Cid) (priority : Int) (cancel : Bool) : impl L :=
  let k := L.KeyString c
  match mapGet k m.wantlist with
  | some e => { m with heap := storePriority m.heap e.ptr priority }
  | none =>
    { m with
      heap := m.heap ++ [{ Cid := c, Priority := priority }]
      wantlist := mapSet k { ptr := m.heap.length, Cancel := cancel } m.wantlist }

/-- The method `Cancel`. -/
def Cancel {L : CidLib} (m : impl L) (k : L.Cid) : impl L :=
  addEntry { m with wantlist := mapDelete (L.KeyString k) m.wantlist } k 0 true

/-- The method `AddEntry`. -/
def AddEntry {L : CidLib} (m : impl L) (k : L.Cid) (priority : Int) : impl L :=
  addEntry m k priority false

/-- The method `AddBlock`. -/
def AddBlock {L : CidLib} (m : impl L) (b : blocks.Block L) : impl L :=
  { m with blocks := mapSet (L.KeyString b.Cid) b m.blocks }

namespace pb

/-- Modelled from the spec: wire want entry `{ key: bytes, priority: int32, cancel: bool }`
of the generated pb package, every field optional. -/
structure Message_Wantlist_Entry where
  Block : Option Bytes
  Priority : Option Int
  Cancel : Option Bool
deriving DecidableEq, Repr

/-- Modelled from the spec: wire want-list container `{ entries, full }`. -/
structure Message_Wantlist where
  Entries : List Message_Wantlist_Entry
  Full : Option Bool
deriving DecidableEq, Repr

/-- Modelled from the spec: wire message `{ wantlist?, blocks: repeated bytes }`. -/
structure Message where
  Wantlist : Option Message_Wantlist
  Blocks : List Bytes
deriving DecidableEq, Repr

/-- Modelled from the spec: getter of the container (nil when absent). -/
def Message.GetWantlist (m : Message) : Option Message_Wantlist := m.Wantlist

/-- Modelled from the spec: getter of the block payloads. -/
def Message.GetBlocks (m : Message) : List Bytes := m.Blocks

/-- Modelled from the spec: getter of `full`, false when the container or the flag is absent. -/
def GetFull (w : Option Message_Wantlist) : Bool :=
  match w with
  | some w => w.Full.getD false
  | none => false

/-- Modelled from the spec: getter of `entries`, empty when the container is absent. -/
def GetEntries (w : Option Message_Wantlist) : List Message_Wantlist_Entry :=
  match w with
  | some w => w.Entries
  | none => []

/-- Modelled from the spec: getter of the key, empty when absent. -/
def Message_Wantlist_Entry.GetBlock (e : Message_Wantlist_Entry) : Bytes := e.Block.getD []

/-- Modelled from the spec: getter of the priority, zero when absent. -/
def Message_Wantlist_Entry.GetPriority (e : Message_Wantlist_Entry) : Int := e.Priority.getD 0

/-- Modelled from the spec: getter of the cancel flag, false when absent. -/
def Message_Wantlist_Entry.GetCancel (e : Message_Wantlist_Entry) : Bool := e.Cancel.getD false

end pb

/-- The Go conversion `int32(p)` of an `int`: wrap-around into the signed 32-bit range. -/
def int32 (p : Int) : Int := (p + 2 ^ 31) % 2 ^ 32 - 2 ^ 31

/-- Membership in the signed 32-bit range. -/
def inInt32 (p : Int) : Prop := -(2 ^ 31) ≤ p ∧ p < 2 ^ 31

instance (p : Int) : Decidable (inInt32 p) := by
  unfold inInt32; infer_instance

/-- The first loop of `newMessageFromProto`: stops at the first key that `cid.Cast`
rejects, yielding the error of `cid.Cast`. -/
def decodeEntries {L : CidLib} : List pb.Message_Wantlist_Entry → impl L → Except String (impl L)
  | [], m => .ok m
  | e :: es, m =>
    match L.Cast e.GetBlock with
    | .error err => .error err
    | .ok c => decodeEntries es (addEntry m c e.GetPriority e.GetCancel)

/-- The second loop of `newMessageFromProto`. -/
def decodeBlocks {L : CidLib} (ds : List Bytes) (m : impl L) : impl L :=
  ds.foldl (fun m d => AddBlock m (blocks.NewBlock d)) m

/-- The function `newMessageFromProto`; the result pair is Go's `(BitSwapMessage, error)`,
with `none` for nil. -/
def newMessageFromProto {L : CidLib} (pbm : pb.Message) : Option (impl L) × Option String :=
  match decodeEntries (pb.GetEntries pbm.GetWantlist) (newMsg (pb.GetFull pbm.GetWantlist)) with
  | .error err => (none, some ("incorrectly formatted cid in wantlist: " ++ err))
  | .ok m => (some (decodeBlocks pbm.GetBlocks m), none)

/-- The wire entry that the first loop of `ToProto` appends for a stored entry `e`;
reading `e.Cid` and `e.Priority` follows the embedded pointer. -/
def protoEntry {L : CidLib} (h : List (wantlist.Entry L)) (e : Entry) :
    Option pb.Message_Wantlist_Entry :=
  h[e.ptr]?.map fun w =>
    { Block := some (L.KeyString w.Cid)
      Priority := some (int32 w.Priority)
      Cancel := some e.Cancel }

/-- The method `ToProto`.  The container is allocated and filled with entries; its
`Full` field is never assigned. -/
def ToProto {L : CidLib} (m : impl L) : pb.Message :=
  { Wantlist := some { Entries := m.wantlist.filterMap (fun kv => protoEntry m.heap kv.2), Full := none }
    Blocks := (Blocks m).map (fun b => b.RawData) }

/-- What a caller reads from an `Entry` value: id, priority and cancel flag. -/
structure WantView (L : CidLib) where
  Cid : L.Cid
  Priority : Int
  Cancel : Bool

/-- Reading the fields of an `Entry` value against the current heap. -/
def Entry.read {L : CidLib} (h : List (wantlist.Entry L)) (e : Entry) : Option (WantView L) :=
  h[e.ptr]?.map fun w => { Cid := w.Cid, Priority := w.Priority, Cancel := e.Cancel }

/-- The fields reported by the entries of a slice (a snapshot) against a heap. -/
def readAll {L : CidLib} (h : List (wantlist.Entry L)) (s : List Entry) : List (WantView L) :=
  s.filterMap (Entry.read h)

/-- The want-list contents of a message: what `Wantlist()` reports right now. -/
def wants {L : CidLib} (m : impl L) : List (WantView L) :=
  readAll m.heap (Wantlist m)

/-- The observable triple (key bytes of the id, priority, cancel flag) of a view. -/
def WantView.triple {L : CidLib} (v : WantView L) : Bytes × Int × Bool :=
  (L.KeyString v.Cid, v.Priority, v.Cancel)

/-- The test "this view is about the id `X`" (ids are compared by their key bytes). -/
def isFor {L : CidLib} (X : L.Cid) (v : WantView L) : Bool :=
  decide (L.KeyString v.Cid = L.KeyString X)

/-- Every entry of the map `l` points to an allocated cell of the heap `h` whose
ContentID has the map key as its KeyString. -/
def Keyed {L : CidLib} (h : List (wantlist.Entry L)) (l : List (Bytes × Entry)) : Prop :=
  ∀ kv ∈ l, (h[kv.2.ptr]?).map (fun w => L.KeyString w.Cid) = some kv.1

/-- Representation invariant of `impl`: map keys are unique, every want-list key is
the KeyString of the cell its entry points to, and every block key is the KeyString
of the block stored under it. -/
def Inv {L : CidLib} (m : impl L) : Prop :=
  (m.wantlist.map Prod.fst).Nodup ∧
  Keyed m.heap m.wantlist ∧
  (m.blocks.map Prod.fst).Nodup ∧
  (∀ kv ∈ m.blocks, L.KeyString kv.2.Cid = kv.1)

instance {L : CidLib} (m : impl L) : Decidable (Inv m) := by
  unfold Inv Keyed; infer_instance

/-- The mutating calls of the interface. -/
inductive Op (L : CidLib) where
  | addEntry (k : L.Cid) (priority : Int)
  | cancel (k : L.Cid)
  | addBlock (b : blocks.Block L)

/-- Performing one call. -/
def Op.apply {L : CidLib} (m : impl L) : Op L → impl L
  | .addEntry k priority => AddEntry m k priority
  | .cancel k => Cancel m k
  | .addBlock b => AddBlock m b

/-- Performing a sequence of calls, first to last. -/
def run {L : CidLib} (ops : List (Op L)) (m : impl L) : impl L :=
  ops.foldl Op.apply m

/-- The call `op` is an `AddEntry` naming an id whose key bytes are `k`. -/
def Op.touches {L : CidLib} (op : Op L) (k : Bytes) : Bool :=
  match op with
  | .addEntry c _ => decide (L.KeyString c = k)
  | .cancel _ => false
  | .addBlock _ => false

/-- The saturating narrowing that the specification offers as one admissible policy
(this is not what the code does; it is used to state what the code does not do). -/
def saturate (p : Int) : Int :=
  if p > 2 ^ 31 - 1 then 2 ^ 31 - 1 else if p < -(2 ^ 31) then -(2 ^ 31) else p

/-- A small instance of the library used to evaluate the definitions: a ContentID
is its key bytes, `Cast` accepts exactly the two-byte keys, and the id derived from
a payload is made of its length and first byte. -/
@[reducible] def demoLib : CidLib where
  Cid := Bytes
  KeyString := fun c => c
  Cast := fun b => if b.length = 2 then .ok b else .error "invalid cid"
  Sum := fun d => [UInt8.ofNat d.length, d.headD 0]

/-- The wire entry for a want-list element that reports `v`: key bytes, narrowed
priority and cancel flag. -/
def wireOf {L : CidLib} (v : WantView L) : pb.Message_Wantlist_Entry :=
  { Block := some (L.KeyString v.Cid)
    Priority := some (int32 v.Priority)
    Cancel := some v.Cancel }

/-- The view `v` with its priority narrowed to 32 bits and widened again. -/
def WantView.narrowed {L : CidLib} (v : WantView L) : WantView L :=
  { v with Priority := int32 v.Priority }

/-- A wire message with two want entries for the same key `k`: priority 1 with
cancel set, then priority 2 with cancel clear. -/
def dupWire (k : Bytes) : pb.Message :=
  { Wantlist := some
      { Entries :=
          [{ Block := some k, Priority := some 1, Cancel := some true },
           { Block := some k, Priority := some 2, Cancel := some false }]
        Full := none }
    Blocks := [] }

/-- A sample message over `demoLib`: a want for the id `[1, 2]` with priority 5, a
cancel for the id `[3, 4]`, and one block. -/
def sampleMsg : impl demoLib :=
  AddBlock (Cancel (AddEntry (New true) [1, 2] 5) [3, 4]) (blocks.NewBlock [7, 8, 9])

/-- A message over `demoLib` built by `New`, an `AddEntry` of the id `[1, 2, 3]`, whose
three-byte KeyString `cid.Cast` of `demoLib` rejects, and an `AddBlock` of the block
that `blocks.NewBlock` derives from the payload `[7]`. -/
def badKeyMsg : impl demoLib :=
  AddBlock (AddEntry (New false) [1, 2, 3] 1) (blocks.NewBlock [7])

/-- A sample sequence of later calls on `sampleMsg`: one `AddEntry` for an id it
already wants, one `Cancel`, one `AddBlock`. -/
def sampleOps : List (Op demoLib) :=
  [.addEntry [1, 2] 9, .cancel [3, 4], .addBlock (blocks.NewBlock [5])]

/-- The test "this block has the ContentID `c`" (ids are compared by their key bytes). -/
def hasCid {L : CidLib} (c : L.Cid) (b : blocks.Block L) : Bool :=
  decide (L.KeyString b.Cid = L.KeyString c)

/-- A wire message without want-list container that carries the payload `d` twice. -/
def twiceWire (d : Bytes) : pb.Message :=
  { Wantlist := none, Blocks := [d, d] }

/-- A wire message whose container carries `full = true`, one want entry and one
block payload. -/
def fullWire : pb.Message :=
  { Wantlist := some
      { Entries := [{ Block := some [1, 2], Priority := some 3, Cancel := some false }]
        Full := some true }
    Blocks := [[9]] }

/-- The wire message with no want-list container and no blocks. -/
def emptyWire : pb.Message :=
  { Wantlist := none, Blocks := [] }

/-- What `addEntry(c, p, b)` leaves as the want-list part for the id `c`, given the
part `l` stored for `c` before: a stored element keeps its id and cancel flag and
gets priority `p`; without a stored element a new one is inserted. -/
def selfAfter {L : CidLib} (c : L.Cid) (p : Int) (b : Bool) (l : List (WantView L)) :
    List (WantView L) :=
  match l with
  | [] => [{ Cid := c, Priority := p, Cancel := b }]
  | v0 :: _ => [{ v0 with Priority := p }]

/-- Modelled from the spec: the varint length prefix of a frame, base 128 with the
low group first and the high bit of a byte marking continuation; yields the
declared length and the rest of the stream, or nothing when the stream ends inside
the prefix. -/
def readUvarint : Bytes → Option (Nat × Bytes)
  | [] => none
  | b :: r =>
    if b < 128 then some (b.toNat, r)
    else
      match readUvarint r with
      | none => none
      | some (n, r1) => some (b.toNat - 128 + 128 * n, r1)

/-- Modelled from the spec: the state of the length-delimited reader made by
`ggio.NewDelimitedReader`: the unread rest `r` of the byte stream, the size `buf` of
the payload buffer allocated so far, and the maximum frame size `maxSize`. -/
structure DelimitedReader where
  r : Bytes
  buf : Nat
  maxSize : Nat
deriving DecidableEq, Repr

/-- Modelled from the spec: `ggio.NewDelimitedReader(r, maxSize)`; nothing is read or
allocated yet. -/
def NewDelimitedReader (r : Bytes) (maxSize : Nat) : DelimitedReader :=
  { r := r, buf := 0, maxSize := maxSize }

/-- Modelled from the spec: one read of the Framer.  Read the length prefix; reject with
`FrameTooLarge` when the declared length exceeds the maximum, before allocating a
buffer and without reading the payload; otherwise allocate, read exactly that many
bytes (`TruncatedFrame` when the stream ends early) and decode them with the codec
`unmarshal`. -/
def DelimitedReader.ReadMsg (unmarshal : Bytes → Except String pb.Message) (d : DelimitedReader) :
    Except String pb.Message × DelimitedReader :=
  match readUvarint d.r with
  | none => (.error "TruncatedFrame", { d with r := [] })
  | some (length, rest) =>
    if length > d.maxSize then (.error "FrameTooLarge", { d with r := rest })
    else if rest.length < length then
      (.error "TruncatedFrame", { d with r := [], buf := max d.buf length })
    else (unmarshal (rest.take length), { d with r := rest.drop length, buf := max d.buf length })

/-- What `FromNet` takes from outside message.go: the constant `inet.MessageSizeMax`
and the protobuf decoding of a payload. -/
structure NetEnv where
  MessageSizeMax : Nat
  Unmarshal : Bytes → Except String pb.Message

/-- The function `FromPBReader`.  The argument `pbr` of interface type `ggio.Reader`
is a reader state `s` with its method `ReadMsg`; the reader state after the call is
returned next to Go's result pair. -/
def FromPBReader {L : CidLib} {σ : Type} (ReadMsg : σ → Except String pb.Message × σ) (s : σ) :
    (Option (impl L) × Option String) × σ :=
  match ReadMsg s with
  | (.error err, s1) => ((none, some err), s1)
  | (.ok pbm, s1) => (newMessageFromProto pbm, s1)

/-- The function `FromNet`; the state of the reader it created is returned next to
Go's result pair. -/
def FromNet {L : CidLib} (E : NetEnv) (r : Bytes) :
    (Option (impl L) × Option String) × DelimitedReader :=
  FromPBReader (DelimitedReader.ReadMsg E.Unmarshal) (NewDelimitedReader r E.MessageSizeMax)

/-- A sample environment: a maximum frame size of 8 MiB and a codec that decodes every
payload to the empty wire message. -/
def demoNet : NetEnv :=
  { MessageSizeMax := 8388608, Unmarshal := fun _ => .ok emptyWire }

/-- A byte stream whose length prefix declares 8388609 bytes, followed by three bytes. -/
def oversizedStream : Bytes := [0x81, 0x80, 0x80, 0x04, 1, 2, 3]

/-- A reader whose `ReadMsg` always fails, leaving its state (a counter) advanced by one. -/
def failingReadMsg (s : Nat) : Except String pb.Message × Nat :=
  (.error "read failed", s + 1)

/-- The messages a caller can hold: built by `New`, or returned by a successful
`newMessageFromProto`, and then mutated by any sequence of `AddEntry`, `Cancel` and
`AddBlock`. -/
inductive Reachable {L : CidLib} : impl L → Prop where
  | new (full : Bool) : Reachable (New full)
  | decoded (pbm : pb.Message) (m : impl L) (h : (newMessageFromProto pbm).1 = some m) :
      Reachable m
  | step (op : Op L) (m : impl L) (h : Reachable m) : Reachable (op.apply m)

/-! ## Go maps as association lists -/

theorem mapGet_eq_none_iff {V : Type} (k : Bytes) (l : List (Bytes × V)) :
    mapGet k l = none ↔ k ∉ l.map Prod.fst := by
  induction l with
  | nil => simp [mapGet]
  | cons a r ih =>
    obtain ⟨k', v⟩ := a
    by_cases h : k' = k
    · simp [mapGet, h]
    · have h' : ¬ k = k' := fun e => h e.symm
      simp [mapGet, h, h', ih]

theorem mapGet_mem {V : Type} {k : Bytes} {v : V} {l : List (Bytes × V)}
    (h : mapGet k l = some v) : (k, v) ∈ l := by
  induction l with
  | nil => simp [mapGet] at h
  | cons a r ih =>
    obtain ⟨k', v'⟩ := a
    by_cases hk : k' = k
    · simp [mapGet, hk] at h
      simp [hk, h]
    · simp [mapGet, hk] at h
      exact List.mem_cons_of_mem _ (ih h)

theorem mapGet_of_mem {V : Type} {k : Bytes} {v : V} {l : List (Bytes × V)}
    (hn : (l.map Prod.fst).Nodup) (h : (k, v) ∈ l) : mapGet k l = some v := by
  induction l with
  | nil => simp at h
  | cons a r ih =>
    obtain ⟨k', v'⟩ := a
    simp only [List.map_cons, List.nodup_cons] at hn
    rcases List.mem_cons.1 h with h | h
    · cases h
      simp [mapGet]
    · have hk : k' ≠ k := by
        intro e
        apply hn.1
        rw [e]
        exact List.mem_map_of_mem Prod.fst h
      simp [mapGet, hk, ih hn.2 h]

theorem mapSet_of_absent {V : Type} {k : Bytes} (v : V) {l : List (Bytes × V)}
    (h : mapGet k l = none) : mapSet k v l = l ++ [(k, v)] := by
  induction l with
  | nil => simp [mapSet]
  | cons a r ih =>
    obtain ⟨k', v'⟩ := a
    by_cases hk : k' = k
    · simp [mapGet, hk] at h
    · simp [mapGet, hk] at h
      simp [mapSet, hk, ih h]

theorem mapSet_keys_of_present {V : Type} {k : Bytes} (v : V) {l : List (Bytes × V)}
    (h : k ∈ l.map Prod.fst) : (mapSet k v l).map Prod.fst = l.map Prod.fst := by
  induction l with
  | nil => simp at h
  | cons a r ih =>
    obtain ⟨k', v'⟩ := a
    by_cases hk : k' = k
    · simp [mapSet, hk]
    · have hk' : ¬ k = k' := fun e => hk e.symm
      simp only [List.map_cons, List.mem_cons, hk', false_or] at h
      simp [mapSet, hk, ih h]

theorem mapSet_mem {V : Type} {k : Bytes} {v : V} {l : List (Bytes × V)} {kv : Bytes × V}
    (h : kv ∈ mapSet k v l) : kv = (k, v) ∨ kv ∈ l := by
  induction l with
  | nil =>
    simp [mapSet] at h
    exact Or.inl h
  | cons a r ih =>
    obtain ⟨k', v'⟩ := a
    by_cases hk : k' = k
    · simp only [mapSet, hk, if_true, List.mem_cons] at h
      rcases h with h | h
      · exact Or.inl h
      · exact Or.inr (List.mem_cons_of_mem _ h)
    · simp only [mapSet, hk, if_false, List.mem_cons] at h
      rcases h with h | h
      · exact Or.inr (h ▸ List.mem_cons_self _ _)
      · rcases ih h with h | h
        · exact Or.inl h
        · exact Or.inr (List.mem_cons_of_mem _ h)

theorem mapSet_keys_nodup {V : Type} (k : Bytes) (v : V) {l : List (Bytes × V)}
    (hn : (l.map Prod.fst).Nodup) : ((mapSet k v l).map Prod.fst).Nodup := by
  by_cases h : k ∈ l.map Prod.fst
  · rw [mapSet_keys_of_present v h]
    exact hn
  · rw [mapSet_of_absent v ((mapGet_eq_none_iff k l).2 h)]
    simp only [List.map_append, List.map_cons, List.map_nil]
    refine List.Nodup.append hn (List.nodup_singleton k) ?_
    intro x hx hx'
    simp only [List.mem_singleton] at hx'
    exact h (hx' ▸ hx)

theorem mapGet_mapSet_self {V : Type} (k : Bytes) (v : V) (l : List (Bytes × V)) :
    mapGet k (mapSet k v l) = some v := by
  induction l with
  | nil => simp [mapSet, mapGet]
  | cons a r ih =>
    obtain ⟨k', v'⟩ := a
    by_cases hk : k' = k
    · simp [mapSet, mapGet, hk]
    · simp [mapSet, mapGet, hk, ih]

theorem mapDelete_keys {V : Type} (k : Bytes) (l : List (Bytes × V)) :
    (mapDelete k l).map Prod.fst = (l.map Prod.fst).filter (fun x => !decide (x = k)) := by
  unfold mapDelete
  rw [List.filter_map]
  rfl

theorem mapGet_mapDelete_self {V : Type} (k : Bytes) (l : List (Bytes × V)) :
    mapGet k (mapDelete k l) = none := by
  rw [mapGet_eq_none_iff, mapDelete_keys]
  simp

/-! ## The heap of `wantlist.Entry` cells -/

theorem storePriority_length {L : CidLib} (h : List (wantlist.Entry L)) (p : Nat) (q : Int) :
    (storePriority h p q).length = h.length := by
  unfold storePriority
  split <;> simp

theorem storePriority_get_self {L : CidLib} (h : List (wantlist.Entry L)) (p : Nat) (q : Int) :
    (storePriority h p q)[p]? = (h[p]?).map (fun w => { w with Priority := q }) := by
  unfold storePriority
  split
  · next w hw =>
    have hp : p < h.length := (List.getElem?_eq_some.1 hw).1
    simp [List.getElem?_set, hp, hw]
  · next hw => simp [hw]

theorem storePriority_get_other {L : CidLib} (h : List (wantlist.Entry L)) {p i : Nat} (q : Int)
    (hi : i ≠ p) : (storePriority h p q)[i]? = h[i]? := by
  unfold storePriority
  split
  · have hp : ¬ p = i := fun e => hi e.symm
    simp [List.getElem?_set, hp]
  · rfl

theorem storePriority_key {L : CidLib} (h : List (wantlist.Entry L)) (p i : Nat) (q : Int) :
    ((storePriority h p q)[i]?).map (fun w => L.KeyString w.Cid) =
      (h[i]?).map (fun w => L.KeyString w.Cid) := by
  by_cases hi : i = p
  · subst hi
    rw [storePriority_get_self]
    cases h[i]? <;> simp
  · rw [storePriority_get_other h q hi]

/-! ## Reading entries through the heap -/

theorem Keyed.read_eq {L : CidLib} {h : List (wantlist.Entry L)} {l : List (Bytes × Entry)}
    (hk : Keyed h l) {kv : Bytes × Entry} (hm : kv ∈ l) :
    ∃ w, h[kv.2.ptr]? = some w ∧ L.KeyString w.Cid = kv.1 ∧
      Entry.read h kv.2 = some { Cid := w.Cid, Priority := w.Priority, Cancel := kv.2.Cancel } := by
  have h1 := hk kv hm
  cases hw : h[kv.2.ptr]? with
  | none => simp [hw] at h1
  | some w =>
    simp only [hw, Option.map_some', Option.some.injEq] at h1
    exact ⟨w, rfl, h1, by simp [Entry.read, hw]⟩

theorem Keyed.of_cons {L : CidLib} {h : List (wantlist.Entry L)} {a : Bytes × Entry}
    {l : List (Bytes × Entry)} (hk : Keyed h (a :: l)) : Keyed h l :=
  fun kv hm => hk kv (List.mem_cons_of_mem _ hm)

theorem readAll_keys {L : CidLib} {h : List (wantlist.Entry L)} {l : List (Bytes × Entry)}
    (hk : Keyed h l) :
    (readAll h (l.map Prod.snd)).map (fun v => L.KeyString v.Cid) = l.map Prod.fst := by
  induction l with
  | nil => simp [readAll]
  | cons a r ih =>
    obtain ⟨w, _, hw2, hw3⟩ := hk.read_eq (List.mem_cons_self a r)
    have ih' := ih hk.of_cons
    simp only [readAll, List.filterMap_map] at ih' ⊢
    simp [List.filterMap_cons, hw3, ih', hw2]

theorem readAll_append_heap {L : CidLib} {h : List (wantlist.Entry L)} {l : List (Bytes × Entry)}
    (hk : Keyed h l) (w : wantlist.Entry L) :
    readAll (h ++ [w]) (l.map Prod.snd) = readAll h (l.map Prod.snd) := by
  unfold readAll
  rw [List.filterMap_map, List.filterMap_map]
  apply List.filterMap_congr
  intro kv hm
  obtain ⟨w', hw1, _, _⟩ := hk.read_eq hm
  have hlt : kv.2.ptr < h.length := (List.getElem?_eq_some.1 hw1).1
  simp [Entry.read, List.getElem?_append_left hlt]

theorem readAll_mapDelete {L : CidLib} {h : List (wantlist.Entry L)} {l : List (Bytes × Entry)}
    (hk : Keyed h l) (k : Bytes) :
    readAll h ((mapDelete k l).map Prod.snd) =
      (readAll h (l.map Prod.snd)).filter (fun v => !decide (L.KeyString v.Cid = k)) := by
  induction l with
  | nil => simp [readAll, mapDelete]
  | cons a r ih =>
    obtain ⟨w, _, hw2, hw3⟩ := hk.read_eq (List.mem_cons_self a r)
    have ih' := ih hk.of_cons
    simp only [readAll, mapDelete] at ih' ⊢
    by_cases hak : a.1 = k
    · simp [List.filter_cons, List.filterMap_cons, hak, hw3, hw2, ih']
    · simp [List.filter_cons, List.filterMap_cons, hak, hw3, hw2, ih']

theorem readAll_storePriority {L : CidLib} {h : List (wantlist.Entry L)}
    {l : List (Bytes × Entry)} (hn : (l.map Prod.fst).Nodup) (hk : Keyed h l)
    {k : Bytes} {e : Entry} (he : (k, e) ∈ l) (q : Int) :
    readAll (storePriority h e.ptr q) (l.map Prod.snd) =
      (readAll h (l.map Prod.snd)).map
        (fun v => if L.KeyString v.Cid = k then { v with Priority := q } else v) := by
  unfold readAll
  rw [List.filterMap_map, List.filterMap_map, List.map_filterMap]
  apply List.filterMap_congr
  intro kv hm
  obtain ⟨w, hw1, hw2, hw3⟩ := hk.read_eq hm
  obtain ⟨we, hwe1, hwe2, _⟩ := hk.read_eq he
  simp only [Function.comp]
  rw [hw3]
  by_cases hp : kv.2.ptr = e.ptr
  · have hwe : w = we := by
      rw [hp, hwe1] at hw1
      exact (Option.some.inj hw1).symm
    have hkk : L.KeyString we.Cid = k := hwe2
    simp [Entry.read, hp, storePriority_get_self, hwe1, hkk, hwe]
  · have hkk : ¬ L.KeyString w.Cid = k := by
      intro e1
      have h1 : mapGet k l = some kv.2 := mapGet_of_mem hn (by rw [← e1, hw2]; exact hm)
      have h2 : mapGet k l = some e := mapGet_of_mem hn he
      rw [h1] at h2
      exact hp (by rw [Option.some.inj h2])
    simp [Entry.read, storePriority_get_other h q hp, hw1, hkk]

/-! ## The mutators and the representation invariant -/

theorem addEntry_of_present {L : CidLib} {m : impl L} {c : L.Cid} {e : Entry}
    (h : mapGet (L.KeyString c) m.wantlist = some e) (p : Int) (b : Bool) :
    addEntry m c p b = { m with heap := storePriority m.heap e.ptr p } := by
  simp [addEntry, h]

theorem addEntry_of_absent {L : CidLib} {m : impl L} {c : L.Cid}
    (h : mapGet (L.KeyString c) m.wantlist = none) (p : Int) (b : Bool) :
    addEntry m c p b =
      { m with
        heap := m.heap ++ [{ Cid := c, Priority := p }]
        wantlist := m.wantlist ++ [(L.KeyString c, { ptr := m.heap.length, Cancel := b })] } := by
  simp [addEntry, h, mapSet_of_absent _ h]

theorem Keyed.storePriority {L : CidLib} {h : List (wantlist.Entry L)} {l : List (Bytes × Entry)}
    (hk : Keyed h l) (p : Nat) (q : Int) : Keyed (storePriority h p q) l := by
  intro kv hm
  rw [storePriority_key]
  exact hk kv hm

theorem Keyed.alloc {L : CidLib} {h : List (wantlist.Entry L)} {l : List (Bytes × Entry)}
    (hk : Keyed h l) (c : L.Cid) (p : Int) (b : Bool) :
    Keyed (h ++ [{ Cid := c, Priority := p }]) (l ++ [(L.KeyString c, { ptr := h.length, Cancel := b })]) := by
  intro kv hm
  rcases List.mem_append.1 hm with hm | hm
  · obtain ⟨w, hw1, hw2, _⟩ := hk.read_eq hm
    have hlt : kv.2.ptr < h.length := (List.getElem?_eq_some.1 hw1).1
    simp [List.getElem?_append_left hlt, hw1, hw2]
  · simp only [List.mem_singleton] at hm
    subst hm
    simp

theorem Keyed.mapDelete {L : CidLib} {h : List (wantlist.Entry L)} {l : List (Bytes × Entry)}
    (hk : Keyed h l) (k : Bytes) : Keyed h (mapDelete k l) :=
  fun kv hm => hk kv (List.mem_of_mem_filter hm)

theorem Inv_newMsg {L : CidLib} (full : Bool) : Inv (newMsg full : impl L) := by
  simp [Inv, Keyed, newMsg]

theorem Inv_addEntry {L : CidLib} {m : impl L} (hm : Inv m) (c : L.Cid) (p : Int) (b : Bool) :
    Inv (addEntry m c p b) := by
  obtain ⟨h1, h2, h3, h4⟩ := hm
  cases hg : mapGet (L.KeyString c) m.wantlist with
  | some e =>
    rw [addEntry_of_present hg]
    exact ⟨h1, h2.storePriority _ _, h3, h4⟩
  | none =>
    rw [addEntry_of_absent hg]
    refine ⟨?_, h2.alloc c p b, h3, h4⟩
    have := mapSet_keys_nodup (L.KeyString c)
      ({ ptr := m.heap.length, Cancel := b } : Entry) h1
    rwa [mapSet_of_absent _ hg] at this

theorem Inv_delete {L : CidLib} {m : impl L} (hm : Inv m) (k : Bytes) :
    Inv { m with wantlist := mapDelete k m.wantlist } := by
  obtain ⟨h1, h2, h3, h4⟩ := hm
  refine ⟨?_, h2.mapDelete k, h3, h4⟩
  show ((mapDelete k m.wantlist).map Prod.fst).Nodup
  rw [mapDelete_keys]
  exact h1.filter _

theorem Inv_AddEntry {L : CidLib} {m : impl L} (hm : Inv m) (k : L.Cid) (p : Int) :
    Inv (AddEntry m k p) :=
  Inv_addEntry hm k p false

theorem Inv_Cancel {L : CidLib} {m : impl L} (hm : Inv m) (k : L.Cid) : Inv (Cancel m k) :=
  Inv_addEntry (Inv_delete hm _) k 0 true

theorem Inv_AddBlock {L : CidLib} {m : impl L} (hm : Inv m) (b : blocks.Block L) :
    Inv (AddBlock m b) := by
  obtain ⟨h1, h2, h3, h4⟩ := hm
  refine ⟨h1, h2, mapSet_keys_nodup _ _ h3, ?_⟩
  intro kv hkv
  rcases mapSet_mem hkv with h | h
  · rw [h]
  · exact h4 kv h

theorem Inv_apply {L : CidLib} {m : impl L} (hm : Inv m) (op : Op L) : Inv (op.apply m) := by
  cases op with
  | addEntry k p => exact Inv_AddEntry hm k p
  | cancel k => exact Inv_Cancel hm k
  | addBlock b => exact Inv_AddBlock hm b

theorem Inv_run {L : CidLib} (ops : List (Op L)) {m : impl L} (hm : Inv m) : Inv (run ops m) := by
  induction ops generalizing m with
  | nil => exact hm
  | cons op r ih => exact ih (Inv_apply hm op)

/-! ## The want-list contents after a mutation -/

theorem wants_keys {L : CidLib} {m : impl L} (hm : Inv m) :
    (wants m).map (fun v => L.KeyString v.Cid) = m.wantlist.map Prod.fst :=
  readAll_keys hm.2.1

theorem wants_length {L : CidLib} {m : impl L} (hm : Inv m) :
    (wants m).length = (Wantlist m).length := by
  have h := congrArg List.length (wants_keys hm)
  simpa [Wantlist] using h

theorem wants_addEntry_of_present {L : CidLib} {m : impl L} (hm : Inv m) {c : L.Cid} {e : Entry}
    (h : mapGet (L.KeyString c) m.wantlist = some e) (p : Int) (b : Bool) :
    wants (addEntry m c p b) =
      (wants m).map (fun v => if L.KeyString v.Cid = L.KeyString c then { v with Priority := p } else v) := by
  rw [addEntry_of_present h]
  exact readAll_storePriority hm.1 hm.2.1 (mapGet_mem h) p

theorem wants_addEntry_of_absent {L : CidLib} {m : impl L} (hm : Inv m) {c : L.Cid}
    (h : mapGet (L.KeyString c) m.wantlist = none) (p : Int) (b : Bool) :
    wants (addEntry m c p b) = wants m ++ [{ Cid := c, Priority := p, Cancel := b }] := by
  rw [addEntry_of_absent h]
  simp only [wants, Wantlist, List.map_append, readAll, List.filterMap_append]
  have h1 := readAll_append_heap hm.2.1 ({ Cid := c, Priority := p } : wantlist.Entry L)
  simp only [readAll] at h1
  rw [h1]
  simp [Entry.read]

theorem wants_delete {L : CidLib} {m : impl L} (hm : Inv m) (k : Bytes) :
    wants { m with wantlist := mapDelete k m.wantlist } =
      (wants m).filter (fun v => !decide (L.KeyString v.Cid = k)) :=
  readAll_mapDelete hm.2.1 k

theorem wants_Cancel {L : CidLib} {m : impl L} (hm : Inv m) (X : L.Cid) :
    wants (Cancel m X) =
      (wants m).filter (fun v => !isFor X v) ++ [{ Cid := X, Priority := 0, Cancel := true }] := by
  unfold Cancel
  rw [wants_addEntry_of_absent (Inv_delete hm _) (mapGet_mapDelete_self _ _), wants_delete hm]
  rfl

theorem filter_key_eq_nil {α : Type} (f : α → Bytes) (k : Bytes) (l : List α)
    (hk : k ∉ l.map f) : l.filter (fun x => decide (f x = k)) = [] := by
  rw [List.filter_eq_nil_iff]
  intro a ha hfa
  apply hk
  have : f a = k := by simpa using hfa
  rw [← this]
  exact List.mem_map_of_mem f ha

theorem filter_key_singleton {α : Type} (f : α → Bytes) (k : Bytes) (l : List α)
    (hn : (l.map f).Nodup) (hk : k ∈ l.map f) :
    ∃ v, f v = k ∧ l.filter (fun x => decide (f x = k)) = [v] := by
  induction l with
  | nil => simp at hk
  | cons a r ih =>
    simp only [List.map_cons, List.nodup_cons] at hn
    by_cases ha : f a = k
    · refine ⟨a, ha, ?_⟩
      have hr : k ∉ r.map f := by rw [← ha]; exact hn.1
      simp [List.filter_cons, ha, filter_key_eq_nil f k r hr]
    · have ha' : ¬ k = f a := fun e => ha e.symm
      simp only [List.map_cons, List.mem_cons, ha', false_or] at hk
      obtain ⟨v, hv1, hv2⟩ := ih hn.2 hk
      exact ⟨v, hv1, by simp [List.filter_cons, ha, hv2]⟩

theorem wants_addEntry_self {L : CidLib} {m : impl L} (hm : Inv m) (c : L.Cid) (p : Int) (b : Bool) :
    ∃ c' b', L.KeyString c' = L.KeyString c ∧
      (wants (addEntry m c p b)).filter (isFor c) = [{ Cid := c', Priority := p, Cancel := b' }] := by
  cases hg : mapGet (L.KeyString c) m.wantlist with
  | some e =>
    have hk : L.KeyString c ∈ (wants m).map (fun v => L.KeyString v.Cid) := by
      rw [wants_keys hm]
      exact List.mem_map_of_mem Prod.fst (mapGet_mem hg)
    have hn : ((wants m).map (fun v => L.KeyString v.Cid)).Nodup := by
      rw [wants_keys hm]
      exact hm.1
    obtain ⟨v, hv1, hv2⟩ := filter_key_singleton _ _ _ hn hk
    refine ⟨v.Cid, v.Cancel, hv1, ?_⟩
    rw [wants_addEntry_of_present hm hg, List.filter_map]
    have hcomp : (isFor c ∘ fun v : WantView L =>
        if L.KeyString v.Cid = L.KeyString c then { v with Priority := p } else v) =
        fun x => decide (L.KeyString x.Cid = L.KeyString c) := by
      funext x
      by_cases hx : L.KeyString x.Cid = L.KeyString c <;> simp [isFor, hx]
    rw [hcomp, hv2]
    simp [hv1]
  | none =>
    refine ⟨c, b, rfl, ?_⟩
    have hk : L.KeyString c ∉ (wants m).map (fun v => L.KeyString v.Cid) := by
      rw [wants_keys hm]
      exact (mapGet_eq_none_iff _ _).1 hg
    have h0 := filter_key_eq_nil _ _ _ hk
    rw [wants_addEntry_of_absent hm hg, List.filter_append]
    have hfun : isFor c = fun x : WantView L => decide (L.KeyString x.Cid = L.KeyString c) := rfl
    rw [hfun, h0]
    simp

theorem wants_addEntry_others {L : CidLib} {m : impl L} (hm : Inv m) (c : L.Cid) (p : Int) (b : Bool) :
    (wants (addEntry m c p b)).filter (fun v => !isFor c v) =
      (wants m).filter (fun v => !isFor c v) := by
  cases hg : mapGet (L.KeyString c) m.wantlist with
  | some e =>
    rw [wants_addEntry_of_present hm hg]
    simp only [isFor]
    induction wants m with
    | nil => rfl
    | cons a r ih =>
      by_cases ha : L.KeyString a.Cid = L.KeyString c
      · simp [List.filter_cons, ha, ih]
      · simp [List.filter_cons, ha, ih]
  | none =>
    rw [wants_addEntry_of_absent hm hg, List.filter_append]
    simp [isFor]

/-! ## Properties of the message store and of the codec -/

/-- C1 (the code departs from the claim): `ToProto` allocates the want-list container
but never assigns its `Full` field, so the wire form of `New(true)` carries no full
flag and `newMessageFromProto` decodes it to a message whose `Full()` is false,
while `Full()` of the original is true. -/
theorem full_flag_not_transmitted (L : CidLib) :
    Full (New true : impl L) = true ∧
    (ToProto (New true : impl L)).Wantlist = some { Entries := [], Full := none } ∧
    (newMessageFromProto (ToProto (New true : impl L)) : Option (impl L) × Option String).1.map Full
      = some false ∧
    (newMessageFromProto (ToProto (New true : impl L)) : Option (impl L) × Option String).2 = none := by
  refine ⟨rfl, rfl, rfl, rfl⟩

/-- C2 (the code departs from the claim): when an entry for the id is already stored,
`addEntry` overwrites the priority through the shared pointer but assigns the cancel
flag only to a local copy.  After `Cancel(X)` followed by `AddEntry(X, p)` the one
entry for `X` has priority `p` and still has cancel = true; likewise after
`addEntry(X, 1, true)` followed by `addEntry(X, p, false)`. -/
theorem addEntry_keeps_stored_cancel_flag (L : CidLib) (X : L.Cid) (p : Int) :
    wants (AddEntry (Cancel (New false) X) X p) = [{ Cid := X, Priority := p, Cancel := true }] ∧
    wants (addEntry (addEntry (New false) X 1 true) X p false) =
      [{ Cid := X, Priority := p, Cancel := true }] := by
  constructor <;>
  simp [AddEntry, Cancel, addEntry, New, newMsg, mapDelete, mapGet, mapSet, storePriority, wants,
    Wantlist, readAll, Entry.read]

/-- C3: for every message satisfying the representation invariant, every id `X` and
all integer priorities `p` and `q`, after `AddEntry(X, p)` and then `AddEntry(X, q)`
the want-list holds exactly one entry whose id has the key of `X`, that entry has
priority `q`, the entries for all other ids are those held before the two calls,
and every element of `Wantlist()` is accounted for. -/
theorem AddEntry_twice_overwrites {L : CidLib} (m : impl L) (hm : Inv m) (X : L.Cid) (p q : Int) :
    (∃ c b, L.KeyString c = L.KeyString X ∧
      (wants (AddEntry (AddEntry m X p) X q)).filter (isFor X) =
        [{ Cid := c, Priority := q, Cancel := b }]) ∧
    (wants (AddEntry (AddEntry m X p) X q)).filter (fun v => !isFor X v) =
      (wants m).filter (fun v => !isFor X v) ∧
    (wants (AddEntry (AddEntry m X p) X q)).length =
      (Wantlist (AddEntry (AddEntry m X p) X q)).length := by
  have h1 : Inv (AddEntry m X p) := Inv_AddEntry hm X p
  refine ⟨wants_addEntry_self h1 X q false, ?_, wants_length (Inv_AddEntry h1 X q)⟩
  unfold AddEntry
  rw [wants_addEntry_others (Inv_addEntry hm X p false), wants_addEntry_others hm]

/-- Witness for C3 on the sample message, with a negative and a zero priority. -/
theorem AddEntry_twice_overwrites_witness :
    Inv sampleMsg ∧
    ((∃ c b, demoLib.KeyString c = demoLib.KeyString [1, 2] ∧
      (wants (AddEntry (AddEntry sampleMsg [1, 2] (-3)) [1, 2] 0)).filter (isFor [1, 2]) =
        [{ Cid := c, Priority := 0, Cancel := b }]) ∧
    (wants (AddEntry (AddEntry sampleMsg [1, 2] (-3)) [1, 2] 0)).filter
        (fun v => !isFor ([1, 2] : demoLib.Cid) v) =
      (wants sampleMsg).filter (fun v => !isFor ([1, 2] : demoLib.Cid) v) ∧
    (wants (AddEntry (AddEntry sampleMsg [1, 2] (-3)) [1, 2] 0)).length =
      (Wantlist (AddEntry (AddEntry sampleMsg [1, 2] (-3)) [1, 2] 0)).length) :=
  ⟨by decide, AddEntry_twice_overwrites sampleMsg (by decide) [1, 2] (-3) 0⟩

/-- C4: for every message satisfying the representation invariant and every id `X`,
after `Cancel(X)` the want-list holds exactly one entry for `X`, with priority 0 and
cancel = true, the entries for other ids are unchanged, every element of
`Wantlist()` is accounted for, and `Empty()` is false. -/
theorem Cancel_leaves_tombstone {L : CidLib} (m : impl L) (hm : Inv m) (X : L.Cid) :
    (wants (Cancel m X)).filter (isFor X) = [{ Cid := X, Priority := 0, Cancel := true }] ∧
    (wants (Cancel m X)).filter (fun v => !isFor X v) = (wants m).filter (fun v => !isFor X v) ∧
    (wants (Cancel m X)).length = (Wantlist (Cancel m X)).length ∧
    Empty (Cancel m X) = false := by
  have hl := wants_length (Inv_Cancel hm X)
  have hw := wants_Cancel hm X
  refine ⟨?_, ?_, hl, ?_⟩
  · rw [hw, List.filter_append, List.filter_filter]
    simp [isFor]
  · rw [hw, List.filter_append, List.filter_filter]
    simp [isFor]
  · rw [hw] at hl
    have hpos : 0 < (Cancel m X).wantlist.length := by
      simp [Wantlist] at hl
      omega
    have hne : ((Cancel m X).wantlist.length == 0) = false := by
      rw [beq_eq_false_iff_ne]
      omega
    simp [Empty, hne]

/-- Witness for C4 on the sample message, cancelling an id that it wants. -/
theorem Cancel_leaves_tombstone_witness :
    Inv sampleMsg ∧
    ((wants (Cancel sampleMsg [1, 2])).filter (isFor [1, 2]) =
      [{ Cid := [1, 2], Priority := 0, Cancel := true }] ∧
    (wants (Cancel sampleMsg [1, 2])).filter (fun v => !isFor ([1, 2] : demoLib.Cid) v) =
      (wants sampleMsg).filter (fun v => !isFor ([1, 2] : demoLib.Cid) v) ∧
    (wants (Cancel sampleMsg [1, 2])).length = (Wantlist (Cancel sampleMsg [1, 2])).length ∧
    Empty (Cancel sampleMsg [1, 2]) = false) :=
  ⟨by decide, Cancel_leaves_tombstone sampleMsg (by decide) [1, 2]⟩

/-- C5 (the code departs from the claim): a wire message holding two want entries
with the same valid key, the first with cancel set and the second with cancel clear,
decodes to exactly one entry that has the priority of the last wire entry but the
cancel flag of the first one. -/
theorem duplicate_wire_key_keeps_first_cancel (L : CidLib) (k : Bytes) (c : L.Cid)
    (hc : L.Cast k = .ok c) :
    (newMessageFromProto (dupWire k) : Option (impl L) × Option String).2 = none ∧
    (newMessageFromProto (dupWire k) : Option (impl L) × Option String).1.map wants =
      some [{ Cid := c, Priority := 2, Cancel := true }] := by
  simp [newMessageFromProto, dupWire, pb.Message.GetWantlist, pb.GetEntries, pb.GetFull,
    pb.Message.GetBlocks, decodeEntries, decodeBlocks, pb.Message_Wantlist_Entry.GetBlock,
    pb.Message_Wantlist_Entry.GetPriority, pb.Message_Wantlist_Entry.GetCancel, hc,
    addEntry, newMsg, mapGet, mapSet, storePriority, wants, Wantlist, readAll, Entry.read]

/-- Witness for C5 with the sample library and the key `[1, 2]`. -/
theorem duplicate_wire_key_keeps_first_cancel_witness :
    demoLib.Cast [1, 2] = .ok [1, 2] ∧
    ((newMessageFromProto (dupWire [1, 2]) : Option (impl demoLib) × Option String).2 = none ∧
    (newMessageFromProto (dupWire [1, 2]) : Option (impl demoLib) × Option String).1.map wants =
      some [{ Cid := [1, 2], Priority := 2, Cancel := true }]) :=
  ⟨rfl, duplicate_wire_key_keeps_first_cancel demoLib [1, 2] [1, 2] rfl⟩

/-! ## Decoding -/

theorem decodeEntries_error_iff {L : CidLib} (es : List pb.Message_Wantlist_Entry) (m : impl L) :
    (∃ err, decodeEntries es m = .error err) ↔
      ∃ e ∈ es, ∃ err, L.Cast e.GetBlock = .error err := by
  induction es generalizing m with
  | nil => simp [decodeEntries]
  | cons e r ih =>
    cases hc : L.Cast e.GetBlock with
    | error err =>
      simp only [decodeEntries, hc]
      exact ⟨fun _ => ⟨e, List.mem_cons_self _ _, err, hc⟩, fun _ => ⟨err, rfl⟩⟩
    | ok c =>
      simp only [decodeEntries, hc]
      rw [ih]
      constructor
      · rintro ⟨e', he', herr⟩
        exact ⟨e', List.mem_cons_of_mem _ he', herr⟩
      · rintro ⟨e', he', err, herr⟩
        rcases List.mem_cons.1 he' with h | h
        · subst h
          rw [hc] at herr
          cases herr
        · exact ⟨e', h, err, herr⟩

theorem decodeEntries_ok_of_all {L : CidLib} (es : List pb.Message_Wantlist_Entry) (m : impl L)
    (h : ∀ e ∈ es, ∃ c, L.Cast e.GetBlock = .ok c) : ∃ m1, decodeEntries es m = .ok m1 := by
  cases hd : decodeEntries es m with
  | ok m1 => exact ⟨m1, rfl⟩
  | error err =>
    obtain ⟨e, he, err', herr⟩ := (decodeEntries_error_iff es m).1 ⟨err, hd⟩
    obtain ⟨c, hc⟩ := h e he
    rw [hc] at herr
    cases herr

theorem Inv_decodeEntries {L : CidLib} (es : List pb.Message_Wantlist_Entry) {m m1 : impl L}
    (hm : Inv m) (h : decodeEntries es m = .ok m1) : Inv m1 := by
  induction es generalizing m with
  | nil =>
    simp only [decodeEntries, Except.ok.injEq] at h
    exact h ▸ hm
  | cons e r ih =>
    cases hc : L.Cast e.GetBlock with
    | error err => simp [decodeEntries, hc] at h
    | ok c =>
      simp only [decodeEntries, hc] at h
      exact ih (Inv_addEntry hm c _ _) h

theorem Inv_decodeBlocks {L : CidLib} (ds : List Bytes) {m : impl L} (hm : Inv m) :
    Inv (decodeBlocks ds m) := by
  induction ds generalizing m with
  | nil => exact hm
  | cons d r ih => exact ih (Inv_AddBlock hm (blocks.NewBlock d))

theorem Inv_newMessageFromProto {L : CidLib} (pbm : pb.Message) {m1 : impl L}
    (h : (newMessageFromProto pbm).1 = some m1) : Inv m1 := by
  unfold newMessageFromProto at h
  cases hd : decodeEntries (pb.GetEntries pbm.GetWantlist)
      (newMsg (pb.GetFull pbm.GetWantlist) : impl L) with
  | error err => simp [hd] at h
  | ok m0 =>
    simp only [hd, Option.some.injEq] at h
    exact h ▸ Inv_decodeBlocks _ (Inv_decodeEntries _ (Inv_newMsg _) hd)

/-- C6: `newMessageFromProto` either meets a want entry whose key bytes `cid.Cast`
rejects, and then returns an error and no message at all (whatever valid entries
came first and whatever blocks the wire message carries), or every want entry has
a key that `cid.Cast` accepts, and then it returns a message and no error. -/
theorem newMessageFromProto_all_or_nothing {L : CidLib} (pbm : pb.Message) :
    ((∃ e ∈ pb.GetEntries pbm.GetWantlist, ∃ err, L.Cast e.GetBlock = .error err) ∧
      (newMessageFromProto pbm : Option (impl L) × Option String).1 = none ∧
      (newMessageFromProto pbm : Option (impl L) × Option String).2.isSome = true) ∨
    ((∀ e ∈ pb.GetEntries pbm.GetWantlist, ∃ c, L.Cast e.GetBlock = .ok c) ∧
      (newMessageFromProto pbm : Option (impl L) × Option String).1.isSome = true ∧
      (newMessageFromProto pbm : Option (impl L) × Option String).2 = none) := by
  cases hd : decodeEntries (pb.GetEntries pbm.GetWantlist)
      (newMsg (pb.GetFull pbm.GetWantlist) : impl L) with
  | error err =>
    left
    refine ⟨(decodeEntries_error_iff _ _).1 ⟨err, hd⟩, ?_, ?_⟩ <;> simp [newMessageFromProto, hd]
  | ok m1 =>
    right
    refine ⟨?_, ?_, ?_⟩
    · intro e he
      cases hc : L.Cast e.GetBlock with
      | ok c => exact ⟨c, rfl⟩
      | error err =>
        obtain ⟨err', herr⟩ := (decodeEntries_error_iff _
          (newMsg (pb.GetFull pbm.GetWantlist) : impl L)).2 ⟨e, he, err, hc⟩
        rw [hd] at herr
        cases herr
    · simp [newMessageFromProto, hd]
    · simp [newMessageFromProto, hd]

/-! ## Encoding followed by decoding -/

theorem int32_of_inInt32 {p : Int} (h : inInt32 p) : int32 p = p := by
  obtain ⟨h1, h2⟩ := h
  unfold int32
  rw [Int.emod_eq_of_lt (by omega) (by omega)]
  omega

theorem ToProto_entries {L : CidLib} {m : impl L} (hm : Inv m) :
    (ToProto m).Wantlist = some { Entries := (wants m).map wireOf, Full := none } := by
  have hk := hm.2.1
  simp only [ToProto, wants, Wantlist, readAll, List.filterMap_map, List.map_filterMap,
    Option.some.injEq, pb.Message_Wantlist.mk.injEq, and_true]
  apply List.filterMap_congr
  intro kv hkv
  obtain ⟨w, hw1, _, hw3⟩ := hk.read_eq hkv
  simp [protoEntry, hw1, Function.comp, hw3, wireOf]

theorem decodeBlocks_wantlist {L : CidLib} (ds : List Bytes) (m : impl L) :
    (decodeBlocks ds m).wantlist = m.wantlist ∧ (decodeBlocks ds m).heap = m.heap ∧
      (decodeBlocks ds m).full = m.full := by
  induction ds generalizing m with
  | nil => exact ⟨rfl, rfl, rfl⟩
  | cons d r ih =>
    have := ih (AddBlock m (blocks.NewBlock d))
    simpa [decodeBlocks, AddBlock] using this

theorem wants_decodeBlocks {L : CidLib} (ds : List Bytes) (m : impl L) :
    wants (decodeBlocks ds m) = wants m := by
  obtain ⟨h1, h2, _⟩ := decodeBlocks_wantlist ds m
  simp [wants, Wantlist, h1, h2]

theorem addEntry_blocks {L : CidLib} (m : impl L) (c : L.Cid) (p : Int) (b : Bool) :
    (addEntry m c p b).blocks = m.blocks ∧ (addEntry m c p b).full = m.full := by
  cases hg : mapGet (L.KeyString c) m.wantlist with
  | some e => rw [addEntry_of_present hg]; exact ⟨rfl, rfl⟩
  | none => rw [addEntry_of_absent hg]; exact ⟨rfl, rfl⟩

theorem decodeEntries_blocks {L : CidLib} (es : List pb.Message_Wantlist_Entry) {m m1 : impl L}
    (h : decodeEntries es m = .ok m1) : m1.blocks = m.blocks ∧ m1.full = m.full := by
  induction es generalizing m with
  | nil =>
    simp only [decodeEntries, Except.ok.injEq] at h
    subst h
    exact ⟨rfl, rfl⟩
  | cons e r ih =>
    cases hc : L.Cast e.GetBlock with
    | error err => simp [decodeEntries, hc] at h
    | ok c =>
      simp only [decodeEntries, hc] at h
      obtain ⟨h1, h2⟩ := ih h
      obtain ⟨h3, h4⟩ := addEntry_blocks m c e.GetPriority e.GetCancel
      exact ⟨h1.trans h3, h2.trans h4⟩

theorem decodeEntries_wireOf {L : CidLib} (vs : List (WantView L)) (m : impl L) (hm : Inv m)
    (hc : ∀ v ∈ vs, L.Cast (L.KeyString v.Cid) = .ok v.Cid)
    (hn : (vs.map (fun v => L.KeyString v.Cid)).Nodup)
    (hd : ∀ v ∈ vs, L.KeyString v.Cid ∉ m.wantlist.map Prod.fst) :
    ∃ m1, decodeEntries (vs.map wireOf) m = .ok m1 ∧ Inv m1 ∧
      wants m1 = wants m ++ vs.map WantView.narrowed := by
  induction vs generalizing m with
  | nil => exact ⟨m, rfl, hm, by simp⟩
  | cons v r ih =>
    have hcv := hc v (List.mem_cons_self _ _)
    have habs : mapGet (L.KeyString v.Cid) m.wantlist = none :=
      (mapGet_eq_none_iff _ _).2 (hd v (List.mem_cons_self _ _))
    simp only [List.map_cons, List.nodup_cons] at hn
    have hm1 : Inv (addEntry m v.Cid (int32 v.Priority) v.Cancel) := Inv_addEntry hm _ _ _
    have hw1 := wants_addEntry_of_absent hm habs (int32 v.Priority) v.Cancel
    have hd1 : ∀ u ∈ r, L.KeyString u.Cid ∉
        (addEntry m v.Cid (int32 v.Priority) v.Cancel).wantlist.map Prod.fst := by
      intro u hu
      rw [addEntry_of_absent habs]
      simp only [List.map_append, List.map_cons, List.map_nil, List.mem_append,
        List.mem_singleton, not_or]
      refine ⟨hd u (List.mem_cons_of_mem _ hu), ?_⟩
      intro e
      apply hn.1
      rw [← e]
      exact List.mem_map_of_mem (fun v => L.KeyString v.Cid) hu
    obtain ⟨m1, h1, h2, h3⟩ := ih _ hm1 (fun u hu => hc u (List.mem_cons_of_mem _ hu)) hn.2 hd1
    refine ⟨m1, ?_, h2, ?_⟩
    · simp only [List.map_cons, decodeEntries, wireOf, pb.Message_Wantlist_Entry.GetBlock,
        Option.getD_some, hcv, pb.Message_Wantlist_Entry.GetPriority,
        pb.Message_Wantlist_Entry.GetCancel]
      exact h1
    · rw [h3, hw1]
      simp [WantView.narrowed]

/-- C7: for every message satisfying the representation invariant whose stored
priorities all lie in the signed 32-bit range, and provided `cid.Cast` inverts
`KeyString` on the ids stored in its want-list, `newMessageFromProto(ToProto(m))`
succeeds and the decoded message reports the same want-list elements (id, priority,
cancel flag) as `m`, each exactly once. -/
theorem wantlist_round_trip {L : CidLib} (m : impl L) (hm : Inv m)
    (hc : ∀ v ∈ wants m, L.Cast (L.KeyString v.Cid) = .ok v.Cid)
    (hp : ∀ v ∈ wants m, inInt32 v.Priority) :
    ∃ m1 : impl L, newMessageFromProto (ToProto m) = (some m1, none) ∧
      wants m1 = wants m ∧ (wants m1).length = (Wantlist m1).length := by
  have hn : ((wants m).map (fun v => L.KeyString v.Cid)).Nodup := by
    rw [wants_keys hm]
    exact hm.1
  obtain ⟨m0, h1, h2, h3⟩ := decodeEntries_wireOf (wants m)
    (newMsg (pb.GetFull (ToProto m).GetWantlist)) (Inv_newMsg _) hc hn (by simp [newMsg])
  have hnar : (wants m).map WantView.narrowed = wants m := by
    conv_rhs => rw [← List.map_id (wants m)]
    apply List.map_congr_left
    intro v hv
    simp [WantView.narrowed, int32_of_inInt32 (hp v hv)]
  refine ⟨decodeBlocks (ToProto m).GetBlocks m0, ?_, ?_, wants_length (Inv_decodeBlocks _ h2)⟩
  · simp only [newMessageFromProto, pb.Message.GetWantlist, ToProto_entries hm, pb.GetEntries]
    simp only [pb.Message.GetWantlist, ToProto_entries hm, pb.GetFull] at h1
    simp only [pb.GetFull]
    rw [h1]
  · rw [wants_decodeBlocks, h3, hnar]
    simp [wants, Wantlist, newMsg, readAll]

/-- Witness for C7 on the sample message. -/
theorem wantlist_round_trip_witness :
    Inv sampleMsg ∧
    (∀ v ∈ wants sampleMsg, demoLib.Cast (demoLib.KeyString v.Cid) = .ok v.Cid) ∧
    (∀ v ∈ wants sampleMsg, inInt32 v.Priority) ∧
    ∃ m1 : impl demoLib, newMessageFromProto (ToProto sampleMsg) = (some m1, none) ∧
      wants m1 = wants sampleMsg ∧ (wants m1).length = (Wantlist m1).length :=
  have hc : ∀ v ∈ wants sampleMsg, demoLib.Cast (demoLib.KeyString v.Cid) = .ok v.Cid := by
    intro v hv
    have hv' : v ∈ [({ Cid := [1, 2], Priority := 5, Cancel := false } : WantView demoLib),
        { Cid := [3, 4], Priority := 0, Cancel := true }] := hv
    simp only [List.mem_cons, List.mem_singleton, List.not_mem_nil, or_false] at hv'
    rcases hv' with h | h <;> (subst h; rfl)
  ⟨by decide, hc, by decide, wantlist_round_trip sampleMsg (by decide) hc (by decide)⟩

theorem decodeBlocks_blocks {L : CidLib} (bl : List (Bytes × blocks.Block L)) (m : impl L)
    (hn : (bl.map Prod.fst).Nodup) (hk : ∀ kv ∈ bl, L.KeyString kv.2.Cid = kv.1)
    (hb : ∀ kv ∈ bl, kv.2 = blocks.NewBlock kv.2.RawData)
    (hd : ∀ kv ∈ bl, kv.1 ∉ m.blocks.map Prod.fst) :
    (decodeBlocks (bl.map (fun kv => kv.2.RawData)) m).blocks = m.blocks ++ bl := by
  induction bl generalizing m with
  | nil => simp [decodeBlocks]
  | cons a r ih =>
    simp only [List.map_cons, List.nodup_cons] at hn
    have ha := hk a (List.mem_cons_self _ _)
    have hab : mapGet a.1 m.blocks = none :=
      (mapGet_eq_none_iff _ _).2 (hd a (List.mem_cons_self _ _))
    have hstep : (AddBlock m (blocks.NewBlock a.2.RawData)).blocks = m.blocks ++ [a] := by
      rw [← hb a (List.mem_cons_self _ _)]
      simp only [AddBlock, ha]
      rw [mapSet_of_absent _ hab]
    have hd1 : ∀ kv ∈ r, kv.1 ∉ (AddBlock m (blocks.NewBlock a.2.RawData)).blocks.map Prod.fst := by
      intro kv hkv
      rw [hstep]
      simp only [List.map_append, List.map_cons, List.map_nil, List.mem_append,
        List.mem_singleton, not_or]
      refine ⟨hd kv (List.mem_cons_of_mem _ hkv), ?_⟩
      intro e
      apply hn.1
      rw [← e]
      exact List.mem_map_of_mem Prod.fst hkv
    have h := ih (AddBlock m (blocks.NewBlock a.2.RawData)) hn.2
      (fun kv h => hk kv (List.mem_cons_of_mem _ h))
      (fun kv h => hb kv (List.mem_cons_of_mem _ h)) hd1
    rw [hstep] at h
    simpa [decodeBlocks] using h

/-- C8 (counterexample): a message reachable by `New`, `AddEntry` and `AddBlock` whose
one stored block is the one `blocks.NewBlock` derives from its raw bytes, but whose
want-list holds an id with a KeyString that `cid.Cast` rejects: decoding its wire
form returns an error and no message, so none of its blocks is recovered. -/
theorem blocks_round_trip_fails_on_rejected_key :
    Reachable badKeyMsg ∧
    Inv badKeyMsg ∧
    (∀ b ∈ Blocks badKeyMsg, b = blocks.NewBlock b.RawData) ∧
    (Blocks badKeyMsg).map (fun b => b.RawData) = [[7]] ∧
    (ToProto badKeyMsg).Blocks = [[7]] ∧
    (newMessageFromProto (ToProto badKeyMsg) : Option (impl demoLib) × Option String) =
      (none, some "incorrectly formatted cid in wantlist: invalid cid") := by
  have h1 : Reachable (AddEntry (New false : impl demoLib) [1, 2, 3] 1) :=
    Reachable.step (Op.addEntry [1, 2, 3] 1 : Op demoLib) (New false) (Reachable.new false)
  have hr : Reachable badKeyMsg :=
    Reachable.step (Op.addBlock (blocks.NewBlock [7]) : Op demoLib) _ h1
  refine ⟨hr, by decide, ?_, by decide, by decide, rfl⟩
  intro b hb
  have hb' : b ∈ [(blocks.NewBlock [7] : blocks.Block demoLib)] := hb
  simp only [List.mem_singleton] at hb'
  subst hb'
  rfl

/-- C8 (amended): for every message satisfying the representation invariant in which
each stored block is the one `blocks.NewBlock` derives from its raw bytes, and in
which `cid.Cast` accepts the KeyString of every stored want-list id,
`newMessageFromProto(ToProto(m))` succeeds and stores exactly the blocks of `m`,
each with the same raw payload and under the same ContentID key, although the wire
form carries only the raw bytes. -/
theorem blocks_round_trip {L : CidLib} (m : impl L) (hm : Inv m)
    (hb : ∀ b ∈ Blocks m, b = blocks.NewBlock b.RawData)
    (hc : ∀ v ∈ wants m, ∃ c, L.Cast (L.KeyString v.Cid) = .ok c) :
    (ToProto m).Blocks = (Blocks m).map (fun b => b.RawData) ∧
    ∃ m1 : impl L, newMessageFromProto (ToProto m) = (some m1, none) ∧
      m1.blocks = m.blocks ∧ Blocks m1 = Blocks m := by
  refine ⟨rfl, ?_⟩
  have hall : ∀ e ∈ pb.GetEntries (ToProto m).GetWantlist, ∃ c, L.Cast e.GetBlock = .ok c := by
    intro e he
    simp only [pb.Message.GetWantlist, ToProto_entries hm, pb.GetEntries, List.mem_map] at he
    obtain ⟨v, hv, rfl⟩ := he
    simpa [wireOf, pb.Message_Wantlist_Entry.GetBlock] using hc v hv
  obtain ⟨m0, h0⟩ := decodeEntries_ok_of_all _
    (newMsg (pb.GetFull (ToProto m).GetWantlist) : impl L) hall
  have hbl : m0.blocks = [] := (decodeEntries_blocks _ h0).1
  have hbs : (ToProto m).GetBlocks = m.blocks.map (fun kv => kv.2.RawData) := by
    simp [pb.Message.GetBlocks, ToProto, Blocks, Function.comp]
  have hres : (decodeBlocks (ToProto m).GetBlocks m0).blocks = m.blocks := by
    rw [hbs, decodeBlocks_blocks m.blocks m0 hm.2.2.1 hm.2.2.2
      (fun kv hkv => hb kv.2 (List.mem_map_of_mem Prod.snd hkv)) (by simp [hbl]), hbl]
    rfl
  refine ⟨decodeBlocks (ToProto m).GetBlocks m0, ?_, hres, ?_⟩
  · simp only [newMessageFromProto, h0]
  · simp only [Blocks, hres]

/-- Witness for C8 (amended) on the sample message. -/
theorem blocks_round_trip_witness :
    Inv sampleMsg ∧
    (∀ b ∈ Blocks sampleMsg, b = blocks.NewBlock b.RawData) ∧
    (∀ v ∈ wants sampleMsg, ∃ c, demoLib.Cast (demoLib.KeyString v.Cid) = .ok c) ∧
    ((ToProto sampleMsg).Blocks = (Blocks sampleMsg).map (fun b => b.RawData) ∧
    ∃ m1 : impl demoLib, newMessageFromProto (ToProto sampleMsg) = (some m1, none) ∧
      m1.blocks = sampleMsg.blocks ∧ Blocks m1 = Blocks sampleMsg) :=
  have hb : ∀ b ∈ Blocks sampleMsg, b = blocks.NewBlock b.RawData := by
    intro b hb
    have hb' : b ∈ [(blocks.NewBlock [7, 8, 9] : blocks.Block demoLib)] := hb
    simp only [List.mem_singleton] at hb'
    subst hb'
    rfl
  have hc : ∀ v ∈ wants sampleMsg, ∃ c, demoLib.Cast (demoLib.KeyString v.Cid) = .ok c := by
    intro v hv
    have hv' : v ∈ [({ Cid := [1, 2], Priority := 5, Cancel := false } : WantView demoLib),
        { Cid := [3, 4], Priority := 0, Cancel := true }] := hv
    simp only [List.mem_cons, List.mem_singleton, List.not_mem_nil, or_false] at hv'
    rcases hv' with h | h <;> (subst h; exact ⟨_, rfl⟩)
  ⟨by decide, hb, hc, blocks_round_trip sampleMsg (by decide) hb hc⟩

/-! ## Narrowing of priorities -/

theorem int32_range (p : Int) : inInt32 (int32 p) := by
  have h1 := Int.emod_nonneg (p + 2 ^ 31) (by norm_num : (2 ^ 32 : Int) ≠ 0)
  have h2 := Int.emod_lt_of_pos (p + 2 ^ 31) (by norm_num : (0 : Int) < 2 ^ 32)
  unfold inInt32 int32
  constructor <;> omega

theorem int32_congr (p : Int) : int32 p = p + -((p + 2 ^ 31) / 2 ^ 32) * 2 ^ 32 := by
  have h := Int.emod_add_ediv (p + 2 ^ 31) (2 ^ 32)
  unfold int32
  linarith

/-- C9 (counterexample): a stored priority of 2^31, one above the signed 32-bit
range, is emitted by `ToProto` as -2^31, which is not the saturated value 2^31 - 1
and has the opposite sign; `ToProto` has no error result. -/
theorem priority_narrowing_not_saturating :
    ¬ inInt32 2147483648 ∧
    saturate 2147483648 = 2147483647 ∧
    (pb.GetEntries (ToProto (AddEntry (New false : impl demoLib) [1, 2] 2147483648)).GetWantlist).map
        (fun e => e.GetPriority) ≠ [saturate 2147483648] ∧
    (ToProto (AddEntry (New false : impl demoLib) [1, 2] 2147483648)).Wantlist =
      some { Entries := [{ Block := some [1, 2], Priority := some (-2147483648),
                           Cancel := some false }],
             Full := none } := by
  decide

/-- C9 (amended): for every message satisfying the representation invariant and every
stored want-list element whose priority `p` lies outside the signed 32-bit range,
`ToProto` (which has no error result) emits for it a wire entry whose priority is
`((p + 2^31) mod 2^32) - 2^31`: a value inside the 32-bit range that differs from `p`
by a non-zero multiple of 2^32. -/
theorem priority_narrowing_wraps {L : CidLib} (m : impl L) (hm : Inv m) (v : WantView L)
    (hv : v ∈ wants m) (hout : ¬ inInt32 v.Priority) :
    ∃ e ∈ pb.GetEntries (ToProto m).GetWantlist,
      e.Block = some (L.KeyString v.Cid) ∧ e.Cancel = some v.Cancel ∧
      e.Priority = some ((v.Priority + 2 ^ 31) % 2 ^ 32 - 2 ^ 31) ∧
      inInt32 ((v.Priority + 2 ^ 31) % 2 ^ 32 - 2 ^ 31) ∧
      ∃ k : Int, k ≠ 0 ∧ (v.Priority + 2 ^ 31) % 2 ^ 32 - 2 ^ 31 = v.Priority + k * 2 ^ 32 := by
  refine ⟨wireOf v, ?_, rfl, rfl, rfl, int32_range v.Priority,
    -((v.Priority + 2 ^ 31) / 2 ^ 32), ?_, int32_congr v.Priority⟩
  · simp only [pb.Message.GetWantlist, ToProto_entries hm, pb.GetEntries]
    exact List.mem_map_of_mem wireOf hv
  · intro hk
    apply hout
    have h := int32_congr v.Priority
    rw [hk, zero_mul, add_zero] at h
    rw [← h]
    exact int32_range v.Priority

/-- Witness for C9 (amended): a stored priority of 2^31. -/
theorem priority_narrowing_wraps_witness :
    Inv (AddEntry (New false : impl demoLib) [1, 2] 2147483648) ∧
    ({ Cid := [1, 2], Priority := 2147483648, Cancel := false } : WantView demoLib) ∈
      wants (AddEntry (New false : impl demoLib) [1, 2] 2147483648) ∧
    ¬ inInt32 2147483648 ∧
    ∃ e ∈ pb.GetEntries (ToProto (AddEntry (New false : impl demoLib) [1, 2] 2147483648)).GetWantlist,
      e.Block = some [1, 2] ∧ e.Cancel = some false ∧
      e.Priority = some ((2147483648 + 2 ^ 31) % 2 ^ 32 - 2 ^ 31) ∧
      inInt32 ((2147483648 + 2 ^ 31) % 2 ^ 32 - 2 ^ 31) ∧
      ∃ k : Int, k ≠ 0 ∧ (2147483648 + 2 ^ 31) % 2 ^ 32 - 2 ^ 31 = 2147483648 + k * 2 ^ 32 :=
  have hv : ({ Cid := [1, 2], Priority := 2147483648, Cancel := false } : WantView demoLib) ∈
      wants (AddEntry (New false : impl demoLib) [1, 2] 2147483648) :=
    List.mem_singleton.2 rfl
  ⟨by decide, hv, by decide,
    priority_narrowing_wraps (AddEntry (New false : impl demoLib) [1, 2] 2147483648) (by decide)
      { Cid := [1, 2], Priority := 2147483648, Cancel := false } hv (by decide)⟩

/-! ## Slices returned by `Wantlist()` and later mutations -/

theorem apply_cell {L : CidLib} {m : impl L} (hm : Inv m) {i : Nat} {w : wantlist.Entry L}
    (hw : m.heap[i]? = some w) (op : Op L) :
    ∃ w1, (op.apply m).heap[i]? = some w1 ∧ w1.Cid = w.Cid ∧
      (op.touches (L.KeyString w.Cid) = false → w1.Priority = w.Priority) := by
  have hlt : i < m.heap.length := (List.getElem?_eq_some.1 hw).1
  have alloc : ∀ (m0 : impl L) (c : L.Cid) (p : Int) (b : Bool), m0.heap = m.heap →
      mapGet (L.KeyString c) m0.wantlist = none →
      ∃ w1, (addEntry m0 c p b).heap[i]? = some w1 ∧ w1.Cid = w.Cid ∧ w1.Priority = w.Priority := by
    intro m0 c p b hh hg
    rw [addEntry_of_absent hg]
    refine ⟨w, ?_, rfl, rfl⟩
    simp only [hh]
    rw [List.getElem?_append_left hlt, hw]
  cases op with
  | addBlock b => exact ⟨w, hw, rfl, fun _ => rfl⟩
  | cancel k =>
    obtain ⟨w1, h1, h2, h3⟩ := alloc { m with wantlist := mapDelete (L.KeyString k) m.wantlist }
      k 0 true rfl (mapGet_mapDelete_self _ _)
    exact ⟨w1, h1, h2, fun _ => h3⟩
  | addEntry k p =>
    cases hg : mapGet (L.KeyString k) m.wantlist with
    | none =>
      obtain ⟨w1, h1, h2, h3⟩ := alloc m k p false rfl hg
      exact ⟨w1, h1, h2, fun _ => h3⟩
    | some e =>
      simp only [Op.apply, AddEntry, addEntry_of_present hg]
      by_cases hi : i = e.ptr
      · subst hi
        refine ⟨{ w with Priority := p }, ?_, rfl, ?_⟩
        · rw [storePriority_get_self, hw]
          rfl
        · intro ht
          exfalso
          obtain ⟨we, hwe1, hwe2, _⟩ := hm.2.1.read_eq (mapGet_mem hg)
          simp only at hwe1 hwe2
          rw [hw] at hwe1
          cases hwe1
          simp [Op.touches, hwe2] at ht
      · exact ⟨w, by rw [storePriority_get_other _ _ hi, hw], rfl, fun _ => rfl⟩

theorem run_cell {L : CidLib} (ops : List (Op L)) {m : impl L} (hm : Inv m) {i : Nat}
    {w : wantlist.Entry L} (hw : m.heap[i]? = some w) :
    ∃ w1, (run ops m).heap[i]? = some w1 ∧ w1.Cid = w.Cid ∧
      ((∀ op ∈ ops, op.touches (L.KeyString w.Cid) = false) → w1.Priority = w.Priority) := by
  induction ops generalizing m w with
  | nil => exact ⟨w, hw, rfl, fun _ => rfl⟩
  | cons op r ih =>
    obtain ⟨w0, h1, h2, h3⟩ := apply_cell hm hw op
    obtain ⟨w1, h4, h5, h6⟩ := ih (Inv_apply hm op) h1
    refine ⟨w1, h4, h5.trans h2, ?_⟩
    intro hall
    rw [h2] at h6
    rw [h6 (fun o ho => hall o (List.mem_cons_of_mem _ ho)), h3 (hall op (List.mem_cons_self _ _))]

theorem readAll_addEntry_heap {L : CidLib} {m : impl L} (hm : Inv m) (X : L.Cid) (q : Int) (b : Bool) :
    readAll (addEntry m X q b).heap (Wantlist m) =
      (wants m).map (fun v => if L.KeyString v.Cid = L.KeyString X then { v with Priority := q } else v) := by
  cases hg : mapGet (L.KeyString X) m.wantlist with
  | some e =>
    rw [addEntry_of_present hg]
    exact readAll_storePriority hm.1 hm.2.1 (mapGet_mem hg) q
  | none =>
    rw [addEntry_of_absent hg]
    have h1 := readAll_append_heap hm.2.1 ({ Cid := X, Priority := q } : wantlist.Entry L)
    simp only [Wantlist]
    rw [h1]
    have hk : L.KeyString X ∉ (wants m).map (fun v => L.KeyString v.Cid) := by
      rw [wants_keys hm]
      exact (mapGet_eq_none_iff _ _).1 hg
    symm
    conv_rhs => rw [← List.map_id (readAll m.heap (List.map Prod.snd m.wantlist))]
    apply List.map_congr_left
    intro v hv
    have : ¬ L.KeyString v.Cid = L.KeyString X := by
      intro e
      apply hk
      rw [← e]
      exact List.mem_map_of_mem (fun v => L.KeyString v.Cid) hv
    simp [this]

/-- C10 (counterexample): take the slice returned by `Wantlist()` on a message that
wants the id `[1, 2]` with priority 1; after a later `AddEntry` of the same id with
priority 7 the entry of that earlier slice reports priority 7, because it holds the
pointer to the cell that `addEntry` writes to. -/
theorem snapshot_priority_is_aliased :
    (readAll (AddEntry (New false : impl demoLib) [1, 2] 1).heap
        (Wantlist (AddEntry (New false : impl demoLib) [1, 2] 1))).map WantView.triple =
      [([1, 2], 1, false)] ∧
    (readAll (AddEntry (AddEntry (New false : impl demoLib) [1, 2] 1) [1, 2] 7).heap
        (Wantlist (AddEntry (New false : impl demoLib) [1, 2] 1))).map WantView.triple =
      [([1, 2], 7, false)] := by
  decide

/-- C10 (amended): for every message satisfying the representation invariant, the
entries of a slice returned by `Wantlist()` stay readable under every later
sequence of `AddEntry`, `Cancel` and `AddBlock`, and each keeps its id and its
cancel flag; it also keeps its priority when no later `AddEntry` names its id.
An `AddEntry(X, q)` performed right after the slice was taken makes the entry of
the slice whose id has the key of `X` report priority `q` and leaves the others as
they were. -/
theorem snapshot_after_mutations {L : CidLib} (m : impl L) (hm : Inv m) (ops : List (Op L))
    (X : L.Cid) (q : Int) :
    (∀ e ∈ Wantlist m, ∃ v v1, Entry.read m.heap e = some v ∧
      Entry.read (run ops m).heap e = some v1 ∧ v1.Cid = v.Cid ∧ v1.Cancel = v.Cancel ∧
      ((∀ op ∈ ops, op.touches (L.KeyString v.Cid) = false) → v1.Priority = v.Priority)) ∧
    readAll (AddEntry m X q).heap (Wantlist m) =
      (wants m).map
        (fun v => if L.KeyString v.Cid = L.KeyString X then { v with Priority := q } else v) := by
  refine ⟨?_, readAll_addEntry_heap hm X q false⟩
  intro e he
  obtain ⟨kv, hkv, rfl⟩ := List.mem_map.1 he
  obtain ⟨w, hw1, _, hw3⟩ := hm.2.1.read_eq hkv
  obtain ⟨w1, h1, h2, h3⟩ := run_cell ops hm hw1
  refine ⟨_, { Cid := w1.Cid, Priority := w1.Priority, Cancel := kv.2.Cancel }, hw3, ?_, h2, rfl, h3⟩
  simp [Entry.read, h1]

/-- Witness for C10 (amended) on the sample message and the sample calls. -/
theorem snapshot_after_mutations_witness :
    Inv sampleMsg ∧
    ((∀ e ∈ Wantlist sampleMsg, ∃ v v1, Entry.read sampleMsg.heap e = some v ∧
      Entry.read (run sampleOps sampleMsg).heap e = some v1 ∧ v1.Cid = v.Cid ∧
      v1.Cancel = v.Cancel ∧
      ((∀ op ∈ sampleOps, op.touches (demoLib.KeyString v.Cid) = false) →
        v1.Priority = v.Priority)) ∧
    readAll (AddEntry sampleMsg [1, 2] 7).heap (Wantlist sampleMsg) =
      (wants sampleMsg).map
        (fun v => if demoLib.KeyString v.Cid = demoLib.KeyString [1, 2]
          then { v with Priority := 7 } else v)) :=
  ⟨by decide, snapshot_after_mutations sampleMsg (by decide) sampleOps [1, 2] 7⟩

/-! ## Invariants of reachable messages -/

theorem Inv_of_Reachable {L : CidLib} {m : impl L} (h : Reachable m) : Inv m := by
  induction h with
  | new full => exact Inv_newMsg full
  | decoded pbm m h => exact Inv_newMessageFromProto pbm h
  | step op m _ ih => exact Inv_apply ih op

theorem Blocks_keys {L : CidLib} {m : impl L} (hm : Inv m) :
    (Blocks m).map (fun b => L.KeyString b.Cid) = m.blocks.map Prod.fst := by
  simp only [Blocks, List.map_map]
  apply List.map_congr_left
  intro kv hkv
  exact hm.2.2.2 kv hkv

/-- C11: in every message reachable from `New` or from a successful
`newMessageFromProto` through any sequence of `AddEntry`, `Cancel` and `AddBlock`,
each want-list map key is the KeyString of the ContentID of the entry stored under
it and each blocks map key is the KeyString of the ContentID of the block stored
under it; hence no two elements of `Wantlist()` have the same ContentID (and every
element is readable), and no two elements of `Blocks()` have the same ContentID. -/
theorem reachable_keys_unique {L : CidLib} (m : impl L) (h : Reachable m) :
    (∀ kv ∈ m.wantlist, (m.heap[kv.2.ptr]?).map (fun w => L.KeyString w.Cid) = some kv.1) ∧
    (∀ kv ∈ m.blocks, L.KeyString kv.2.Cid = kv.1) ∧
    ((wants m).map (fun v => L.KeyString v.Cid)).Nodup ∧
    (wants m).length = (Wantlist m).length ∧
    ((Blocks m).map (fun b => L.KeyString b.Cid)).Nodup := by
  have hm := Inv_of_Reachable h
  refine ⟨hm.2.1, hm.2.2.2, ?_, wants_length hm, ?_⟩
  · rw [wants_keys hm]
    exact hm.1
  · rw [Blocks_keys hm]
    exact hm.2.2.1

/-- Witness for C11 on the sample message, which is built by `New` and three calls. -/
theorem reachable_keys_unique_witness :
    Reachable sampleMsg ∧
    ((∀ kv ∈ sampleMsg.wantlist,
      (sampleMsg.heap[kv.2.ptr]?).map (fun w => demoLib.KeyString w.Cid) = some kv.1) ∧
    (∀ kv ∈ sampleMsg.blocks, demoLib.KeyString kv.2.Cid = kv.1) ∧
    ((wants sampleMsg).map (fun v => demoLib.KeyString v.Cid)).Nodup ∧
    (wants sampleMsg).length = (Wantlist sampleMsg).length ∧
    ((Blocks sampleMsg).map (fun b => demoLib.KeyString b.Cid)).Nodup) :=
  have h1 : Reachable (AddEntry (New true : impl demoLib) [1, 2] 5) :=
    Reachable.step (Op.addEntry [1, 2] 5 : Op demoLib) (New true) (Reachable.new true)
  have h2 : Reachable (Cancel (AddEntry (New true : impl demoLib) [1, 2] 5) [3, 4]) :=
    Reachable.step (Op.cancel [3, 4] : Op demoLib) _ h1
  have hr : Reachable sampleMsg :=
    Reachable.step (Op.addBlock (blocks.NewBlock [7, 8, 9]) : Op demoLib) _ h2
  ⟨hr, reachable_keys_unique sampleMsg hr⟩

/-- C12: for every message, `Empty()` is true exactly when `Wantlist()` and
`Blocks()` both have length 0; a message freshly built by `New(full)` is empty, has
no want entries and no blocks, and reports `Full() = full`, for either value of
`full`. -/
theorem Empty_iff_and_New {L : CidLib} (m : impl L) (full : Bool) :
    (Empty m = true ↔ (Wantlist m).length = 0 ∧ (Blocks m).length = 0) ∧
    Empty (New full : impl L) = true ∧
    Wantlist (New full : impl L) = [] ∧
    Blocks (New full : impl L) = [] ∧
    wants (New full : impl L) = [] ∧
    Full (New full : impl L) = full := by
  refine ⟨?_, rfl, rfl, rfl, rfl, rfl⟩
  simp only [Empty, Wantlist, Blocks, List.length_map, Bool.and_eq_true, beq_iff_eq]
  exact ⟨fun h => ⟨h.2, h.1⟩, fun h => ⟨h.2, h.1⟩⟩

/-- C16: for every message, `AddEntry`, `Cancel` and `AddBlock` leave `Full()`
unchanged; `AddEntry` and `Cancel` leave the stored blocks unchanged; `AddBlock`
leaves the stored want-list (map, cells, and what `Wantlist()` reports) unchanged. -/
theorem mutators_frame {L : CidLib} (m : impl L) (k : L.Cid) (p : Int) (b : blocks.Block L) :
    Full (AddEntry m k p) = Full m ∧ Full (Cancel m k) = Full m ∧ Full (AddBlock m b) = Full m ∧
    (AddEntry m k p).blocks = m.blocks ∧ Blocks (AddEntry m k p) = Blocks m ∧
    (Cancel m k).blocks = m.blocks ∧ Blocks (Cancel m k) = Blocks m ∧
    (AddBlock m b).wantlist = m.wantlist ∧ (AddBlock m b).heap = m.heap ∧
    Wantlist (AddBlock m b) = Wantlist m ∧ wants (AddBlock m b) = wants m := by
  have h1 := addEntry_blocks m k p false
  have h2 := addEntry_blocks { m with wantlist := mapDelete (L.KeyString k) m.wantlist } k 0 true
  refine ⟨h1.2, h2.2, rfl, h1.1, ?_, h2.1, ?_, rfl, rfl, rfl, rfl⟩
  · simp only [Blocks, AddEntry, h1.1]
  · have : (Cancel m k).blocks = m.blocks := h2.1
    simp only [Blocks, this]

/-! ## Stored blocks -/

theorem mapSet_filter_other {V : Type} (k : Bytes) (v : V) (l : List (Bytes × V)) :
    (mapSet k v l).filter (fun kv => !decide (kv.1 = k)) =
      l.filter (fun kv => !decide (kv.1 = k)) := by
  induction l with
  | nil => simp [mapSet]
  | cons a r ih =>
    obtain ⟨k', v'⟩ := a
    by_cases hk : k' = k
    · simp [mapSet, hk, List.filter_cons]
    · simp [mapSet, hk, List.filter_cons, ih]

theorem mapSet_filter_self {V : Type} (k : Bytes) (v : V) {l : List (Bytes × V)}
    (hn : (l.map Prod.fst).Nodup) :
    (mapSet k v l).filter (fun kv => decide (kv.1 = k)) = [(k, v)] := by
  induction l with
  | nil => simp [mapSet]
  | cons a r ih =>
    obtain ⟨k', v'⟩ := a
    simp only [List.map_cons, List.nodup_cons] at hn
    by_cases hk : k' = k
    · have hr : k ∉ r.map Prod.fst := by rw [← hk]; exact hn.1
      have h0 := filter_key_eq_nil Prod.fst k r hr
      simp [mapSet, hk, List.filter_cons, h0]
    · simp [mapSet, hk, List.filter_cons, ih hn.2]

theorem mapSet_idem {V : Type} (k : Bytes) (v : V) (l : List (Bytes × V)) :
    mapSet k v (mapSet k v l) = mapSet k v l := by
  induction l with
  | nil => simp [mapSet]
  | cons a r ih =>
    obtain ⟨k', v'⟩ := a
    by_cases hk : k' = k
    · simp [mapSet, hk]
    · simp [mapSet, hk, ih]

theorem mapSet_keys_mem {V : Type} (k : Bytes) (v : V) (l : List (Bytes × V)) :
    k ∈ (mapSet k v l).map Prod.fst := by
  by_contra h
  have := (mapGet_eq_none_iff k (mapSet k v l)).2 h
  rw [mapGet_mapSet_self] at this
  cases this

theorem mapSet_keys_mono {V : Type} (k : Bytes) (v : V) {l : List (Bytes × V)} {x : Bytes}
    (hx : x ∈ l.map Prod.fst) : x ∈ (mapSet k v l).map Prod.fst := by
  by_cases h : k ∈ l.map Prod.fst
  · rw [mapSet_keys_of_present v h]
    exact hx
  · rw [mapSet_of_absent v ((mapGet_eq_none_iff k l).2 h)]
    simp only [List.map_append, List.mem_append]
    exact Or.inl hx

theorem Blocks_filter {L : CidLib} {m : impl L} (hm : Inv m) (P : Bytes → Bool) :
    (Blocks m).filter (fun b => P (L.KeyString b.Cid)) =
      (m.blocks.filter (fun kv => P kv.1)).map Prod.snd := by
  simp only [Blocks, List.filter_map]
  congr 1
  apply List.filter_congr
  intro kv hkv
  simp [Function.comp, hm.2.2.2 kv hkv]

theorem decodeBlocks_keys_mono {L : CidLib} (ds : List Bytes) (m : impl L) {x : Bytes}
    (hx : x ∈ m.blocks.map Prod.fst) : x ∈ (decodeBlocks ds m).blocks.map Prod.fst := by
  induction ds generalizing m with
  | nil => exact hx
  | cons d r ih => exact ih (AddBlock m (blocks.NewBlock d)) (mapSet_keys_mono _ _ hx)

theorem decodeBlocks_keys_mem {L : CidLib} (ds : List Bytes) (m : impl L) {d : Bytes}
    (hd : d ∈ ds) : L.KeyString (L.Sum d) ∈ (decodeBlocks ds m).blocks.map Prod.fst := by
  induction ds generalizing m with
  | nil => simp at hd
  | cons a r ih =>
    rcases List.mem_cons.1 hd with h | h
    · subst h
      exact decodeBlocks_keys_mono r (AddBlock m (blocks.NewBlock d)) (mapSet_keys_mem _ _ _)
    · exact ih (AddBlock m (blocks.NewBlock a)) h

/-- C13: for every message satisfying the representation invariant and every block
`b`, after `AddBlock(b)` exactly one stored block has the ContentID of `b` and it is
`b`, and the blocks with other ContentIDs are those stored before; `AddBlock(b)`
applied twice leaves the same state as applied once; and in every message decoded
from a wire message, each payload of the wire message (however often it occurs)
accounts for exactly one stored block with the ContentID derived from it; a wire
message that carries just the same payload twice decodes to a single stored block,
the one built from that payload. -/
theorem AddBlock_insert_or_overwrite {L : CidLib} (m : impl L) (hm : Inv m) (b : blocks.Block L)
    (pbm : pb.Message) (m1 : impl L) (hdec : newMessageFromProto pbm = (some m1, none))
    (d : Bytes) (hd : d ∈ pbm.GetBlocks) :
    (Blocks (AddBlock m b)).filter (hasCid b.Cid) = [b] ∧
    (Blocks (AddBlock m b)).filter (fun x => !hasCid b.Cid x) =
      (Blocks m).filter (fun x => !hasCid b.Cid x) ∧
    AddBlock (AddBlock m b) b = AddBlock m b ∧
    ((Blocks m1).filter (hasCid (L.Sum d))).length = 1 ∧
    ∃ m2 : impl L, newMessageFromProto (twiceWire d) = (some m2, none) ∧
      Blocks m2 = [blocks.NewBlock d] := by
  have hm' := Inv_AddBlock hm b
  refine ⟨?_, ?_, ?_, ?_, ?_⟩
  · have h := Blocks_filter hm' (fun k => decide (k = L.KeyString b.Cid))
    have hfun : hasCid b.Cid = fun x : blocks.Block L =>
        decide (L.KeyString x.Cid = L.KeyString b.Cid) := rfl
    rw [hfun, h]
    simp only [AddBlock]
    rw [mapSet_filter_self _ _ hm.2.2.1]
    rfl
  · have h := Blocks_filter hm' (fun k => !decide (k = L.KeyString b.Cid))
    have h0 := Blocks_filter hm (fun k => !decide (k = L.KeyString b.Cid))
    simp only [hasCid]
    rw [h, h0]
    simp only [AddBlock]
    rw [mapSet_filter_other]
  · simp only [AddBlock, mapSet_idem]
  · have hm1 : Inv m1 := Inv_newMessageFromProto pbm (by rw [hdec])
    have hmem : L.KeyString (L.Sum d) ∈ (Blocks m1).map (fun x => L.KeyString x.Cid) := by
      rw [Blocks_keys hm1]
      unfold newMessageFromProto at hdec
      cases hde : decodeEntries (pb.GetEntries pbm.GetWantlist)
          (newMsg (pb.GetFull pbm.GetWantlist) : impl L) with
      | error err => simp [hde] at hdec
      | ok m0 =>
        simp only [hde, Prod.mk.injEq, Option.some.injEq, and_true] at hdec
        rw [← hdec]
        exact decodeBlocks_keys_mem _ m0 hd
    have hnd : ((Blocks m1).map (fun x => L.KeyString x.Cid)).Nodup := by
      rw [Blocks_keys hm1]
      exact hm1.2.2.1
    obtain ⟨v, _, hv⟩ := filter_key_singleton _ _ _ hnd hmem
    have hfun : hasCid (L.Sum d) = fun x : blocks.Block L =>
        decide (L.KeyString x.Cid = L.KeyString (L.Sum d)) := rfl
    rw [hfun, hv]
    rfl
  · refine ⟨_, rfl, ?_⟩
    simp [Blocks, twiceWire, pb.Message.GetBlocks, decodeBlocks, AddBlock, mapSet,
      pb.Message.GetWantlist, pb.GetFull, newMsg]

/-- Witness for C13: overwriting the block of the sample message, and a wire message
that carries the payload `[5]` twice. -/
theorem AddBlock_insert_or_overwrite_witness :
    Inv sampleMsg ∧
    (newMessageFromProto (twiceWire [5]) : Option (impl demoLib) × Option String) =
      (some (decodeBlocks [[5], [5]] (newMsg false)), none) ∧
    ([5] : Bytes) ∈ (twiceWire [5]).GetBlocks ∧
    ((Blocks (AddBlock sampleMsg (blocks.NewBlock [7, 8, 9]))).filter
        (hasCid (blocks.NewBlock [7, 8, 9] : blocks.Block demoLib).Cid) =
      [blocks.NewBlock [7, 8, 9]] ∧
    (Blocks (AddBlock sampleMsg (blocks.NewBlock [7, 8, 9]))).filter
        (fun x => !hasCid (blocks.NewBlock [7, 8, 9] : blocks.Block demoLib).Cid x) =
      (Blocks sampleMsg).filter
        (fun x => !hasCid (blocks.NewBlock [7, 8, 9] : blocks.Block demoLib).Cid x) ∧
    AddBlock (AddBlock sampleMsg (blocks.NewBlock [7, 8, 9])) (blocks.NewBlock [7, 8, 9]) =
      AddBlock sampleMsg (blocks.NewBlock [7, 8, 9]) ∧
    ((Blocks (decodeBlocks [[5], [5]] (newMsg false) : impl demoLib)).filter
        (hasCid (demoLib.Sum [5]))).length = 1 ∧
    ∃ m2 : impl demoLib, newMessageFromProto (twiceWire [5]) = (some m2, none) ∧
      Blocks m2 = [blocks.NewBlock [5]]) :=
  ⟨by decide, rfl, by decide,
    AddBlock_insert_or_overwrite sampleMsg (by decide) (blocks.NewBlock [7, 8, 9])
      (twiceWire [5]) (decodeBlocks [[5], [5]] (newMsg false)) rfl [5] (by decide)⟩

/-! ## The wire form -/

/-- C14: for every message satisfying the representation invariant, `ToProto` yields
a wire message with a want-list container that holds one wire entry per stored want
entry (as many as `Wantlist()` has elements), each with the KeyString of the
entry's ContentID as key and the stored cancel flag, and a block list that is a
permutation of (in the model: equal to) the raw payloads of the stored blocks, as
many as `Blocks()` has elements; the block list consists of raw payloads only. -/
theorem ToProto_wire_form {L : CidLib} (m : impl L) (hm : Inv m) :
    ∃ w, (ToProto m).Wantlist = some w ∧
      w.Entries.length = (Wantlist m).length ∧
      w.Entries.map (fun e => (e.Block, e.Cancel)) =
        (wants m).map (fun v => (some (L.KeyString v.Cid), some v.Cancel)) ∧
      ((ToProto m).Blocks).Perm ((Blocks m).map (fun b => b.RawData)) ∧
      (ToProto m).Blocks = (Blocks m).map (fun b => b.RawData) ∧
      (ToProto m).Blocks.length = (Blocks m).length := by
  refine ⟨_, ToProto_entries hm, ?_, ?_, List.Perm.refl _, rfl, ?_⟩
  · simp [wants_length hm]
  · simp [wireOf, Function.comp]
  · simp [ToProto]

/-- Witness for C14 on the sample message. -/
theorem ToProto_wire_form_witness :
    Inv sampleMsg ∧
    ∃ w, (ToProto sampleMsg).Wantlist = some w ∧
      w.Entries.length = (Wantlist sampleMsg).length ∧
      w.Entries.map (fun e => (e.Block, e.Cancel)) =
        (wants sampleMsg).map (fun v => (some (demoLib.KeyString v.Cid), some v.Cancel)) ∧
      ((ToProto sampleMsg).Blocks).Perm ((Blocks sampleMsg).map (fun b => b.RawData)) ∧
      (ToProto sampleMsg).Blocks = (Blocks sampleMsg).map (fun b => b.RawData) ∧
      (ToProto sampleMsg).Blocks.length = (Blocks sampleMsg).length :=
  ⟨by decide, ToProto_wire_form sampleMsg (by decide)⟩

theorem decodeEntries_full {L : CidLib} (es : List pb.Message_Wantlist_Entry) {m m1 : impl L}
    (h : decodeEntries es m = .ok m1) : m1.full = m.full :=
  (decodeEntries_blocks es h).2

/-- C15: for every wire message whose want-entry keys are all accepted by `cid.Cast`,
`newMessageFromProto` succeeds and `Full()` of the decoded message is the full flag
of the wire want-list container, and false when the container or the flag is
absent; the wire message with no want-list container and no blocks decodes to a
message with `Empty() = true` and `Full() = false`. -/
theorem decode_reads_full_flag {L : CidLib} (pbm : pb.Message)
    (hk : ∀ e ∈ pb.GetEntries pbm.GetWantlist, ∃ c, L.Cast e.GetBlock = .ok c) :
    (∃ m1 : impl L, newMessageFromProto pbm = (some m1, none) ∧
      Full m1 =
        (match pbm.Wantlist with
         | some w => (match w.Full with
                      | some f => f
                      | none => false)
         | none => false)) ∧
    ∃ m2 : impl L, newMessageFromProto emptyWire = (some m2, none) ∧
      Empty m2 = true ∧ Full m2 = false := by
  refine ⟨?_, _, rfl, rfl, rfl⟩
  obtain ⟨m0, h0⟩ := decodeEntries_ok_of_all _
    (newMsg (pb.GetFull pbm.GetWantlist) : impl L) hk
  refine ⟨decodeBlocks pbm.GetBlocks m0, by simp only [newMessageFromProto, h0], ?_⟩
  have h1 := (decodeBlocks_wantlist pbm.GetBlocks m0).2.2
  have h2 := decodeEntries_full _ h0
  simp only [Full, h1, h2, newMsg, pb.GetFull, pb.Message.GetWantlist]
  cases pbm.Wantlist with
  | none => rfl
  | some w =>
    obtain ⟨es, f⟩ := w
    cases f <;> rfl

/-- Witness for C15 on a wire message whose container carries `full = true`. -/
theorem decode_reads_full_flag_witness :
    (∀ e ∈ pb.GetEntries fullWire.GetWantlist, ∃ c, demoLib.Cast e.GetBlock = .ok c) ∧
    ((∃ m1 : impl demoLib, newMessageFromProto fullWire = (some m1, none) ∧
      Full m1 =
        (match fullWire.Wantlist with
         | some w => (match w.Full with
                      | some f => f
                      | none => false)
         | none => false)) ∧
    ∃ m2 : impl demoLib, newMessageFromProto emptyWire = (some m2, none) ∧
      Empty m2 = true ∧ Full m2 = false) :=
  have hk : ∀ e ∈ pb.GetEntries fullWire.GetWantlist, ∃ c, demoLib.Cast e.GetBlock = .ok c := by
    intro e he
    have he' : e ∈ [({ Block := some [1, 2], Priority := some 3, Cancel := some false } :
        pb.Message_Wantlist_Entry)] := he
    simp only [List.mem_singleton] at he'
    subst he'
    exact ⟨_, rfl⟩
  ⟨hk, decode_reads_full_flag fullWire hk⟩

/-! ## Priorities on the wire -/

theorem int32_eq_self_iff (p : Int) : int32 p = p ↔ inInt32 p := by
  constructor
  · intro h
    rw [← h]
    exact int32_range p
  · exact int32_of_inInt32

theorem mem_wants_addEntry {L : CidLib} {m : impl L} (hm : Inv m) {c : L.Cid} {p : Int} {b : Bool}
    {v : WantView L} (hv : v ∈ wants (addEntry m c p b)) :
    (L.KeyString v.Cid = L.KeyString c ∧ v.Priority = p) ∨ v ∈ wants m := by
  cases hg : mapGet (L.KeyString c) m.wantlist with
  | some e =>
    rw [wants_addEntry_of_present hm hg] at hv
    obtain ⟨v0, hv0, rfl⟩ := List.mem_map.1 hv
    by_cases hk : L.KeyString v0.Cid = L.KeyString c
    · left
      simp [hk]
    · right
      simpa [hk] using hv0
  | none =>
    rw [wants_addEntry_of_absent hm hg] at hv
    rcases List.mem_append.1 hv with h | h
    · exact Or.inr h
    · left
      simp only [List.mem_singleton] at h
      subst h
      exact ⟨rfl, rfl⟩

theorem decodeEntries_priority {L : CidLib} (es : List pb.Message_Wantlist_Entry) {m m1 : impl L}
    (hm : Inv m) (h : decodeEntries es m = .ok m1) {v : WantView L} (hv : v ∈ wants m1) :
    (∃ e ∈ es, ∃ c, L.Cast e.GetBlock = .ok c ∧ L.KeyString c = L.KeyString v.Cid ∧
        v.Priority = e.GetPriority) ∨
      ∃ v0 ∈ wants m, L.KeyString v0.Cid = L.KeyString v.Cid ∧ v0.Priority = v.Priority := by
  induction es generalizing m with
  | nil =>
    simp only [decodeEntries, Except.ok.injEq] at h
    subst h
    exact Or.inr ⟨v, hv, rfl, rfl⟩
  | cons e r ih =>
    cases hc : L.Cast e.GetBlock with
    | error err => simp [decodeEntries, hc] at h
    | ok c =>
      simp only [decodeEntries, hc] at h
      rcases ih (Inv_addEntry hm c _ _) h with ⟨e', he', hrest⟩ | ⟨v0, hv0, hk, hp⟩
      · exact Or.inl ⟨e', List.mem_cons_of_mem _ he', hrest⟩
      · rcases mem_wants_addEntry hm hv0 with ⟨h1, h2⟩ | h1
        · exact Or.inl ⟨e, List.mem_cons_self _ _, c, hc, h1.symm.trans hk, hp.symm.trans h2⟩
        · exact Or.inr ⟨v0, h1, hk, hp⟩

/-- C18: for every message satisfying the representation invariant and every stored
want-list element with priority `p`, `ToProto` emits for it the wire priority
`((p + 2^31) mod 2^32) - 2^31`, which equals `p` exactly when
`-2^31 <= p <= 2^31 - 1`; and every priority reported by a message that
`newMessageFromProto` returns is the unchanged priority value of a wire entry for
that id. -/
theorem priority_cast_is_twos_complement {L : CidLib} (m : impl L) (hm : Inv m) (v : WantView L)
    (hv : v ∈ wants m) (pbm : pb.Message) (m1 : impl L)
    (hdec : newMessageFromProto pbm = (some m1, none)) (u : WantView L) (hu : u ∈ wants m1) :
    (∃ e ∈ pb.GetEntries (ToProto m).GetWantlist,
      e.Block = some (L.KeyString v.Cid) ∧
      e.Priority = some ((v.Priority + 2 ^ 31) % 2 ^ 32 - 2 ^ 31)) ∧
    ((v.Priority + 2 ^ 31) % 2 ^ 32 - 2 ^ 31 = v.Priority ↔
      (-(2 ^ 31) ≤ v.Priority ∧ v.Priority ≤ 2 ^ 31 - 1)) ∧
    ∃ e ∈ pb.GetEntries pbm.GetWantlist, ∃ c, L.Cast e.GetBlock = .ok c ∧
      L.KeyString c = L.KeyString u.Cid ∧ u.Priority = e.GetPriority := by
  refine ⟨⟨wireOf v, ?_, rfl, rfl⟩, ?_, ?_⟩
  · simp only [pb.Message.GetWantlist, ToProto_entries hm, pb.GetEntries]
    exact List.mem_map_of_mem wireOf hv
  · have h := int32_eq_self_iff v.Priority
    simp only [int32, inInt32] at h
    rw [h]
    constructor <;> intro ⟨h1, h2⟩ <;> exact ⟨h1, by omega⟩
  · unfold newMessageFromProto at hdec
    cases hde : decodeEntries (pb.GetEntries pbm.GetWantlist)
        (newMsg (pb.GetFull pbm.GetWantlist) : impl L) with
    | error err => simp [hde] at hdec
    | ok m0 =>
      simp only [hde, Prod.mk.injEq, Option.some.injEq, and_true] at hdec
      rw [← hdec, wants_decodeBlocks] at hu
      rcases decodeEntries_priority _ (Inv_newMsg _) hde hu with h | ⟨v0, hv0, _⟩
      · exact h
      · simp [wants, Wantlist, newMsg, readAll] at hv0

/-- Witness for C18: a stored priority of 2^31 on the encoding side, and the decoded
entry of `fullWire` on the decoding side. -/
theorem priority_cast_is_twos_complement_witness :
    Inv (AddEntry (New false : impl demoLib) [1, 2] 2147483648) ∧
    ({ Cid := [1, 2], Priority := 2147483648, Cancel := false } : WantView demoLib) ∈
      wants (AddEntry (New false : impl demoLib) [1, 2] 2147483648) ∧
    (newMessageFromProto fullWire : Option (impl demoLib) × Option String) =
      (some (AddBlock (AddEntry (New true) [1, 2] 3) (blocks.NewBlock [9])), none) ∧
    ({ Cid := [1, 2], Priority := 3, Cancel := false } : WantView demoLib) ∈
      wants (AddBlock (AddEntry (New true : impl demoLib) [1, 2] 3) (blocks.NewBlock [9])) ∧
    ((∃ e ∈ pb.GetEntries
        (ToProto (AddEntry (New false : impl demoLib) [1, 2] 2147483648)).GetWantlist,
      e.Block = some [1, 2] ∧
      e.Priority = some ((2147483648 + 2 ^ 31) % 2 ^ 32 - 2 ^ 31)) ∧
    ((2147483648 + 2 ^ 31) % 2 ^ 32 - 2 ^ 31 = (2147483648 : Int) ↔
      (-(2 ^ 31) ≤ (2147483648 : Int) ∧ (2147483648 : Int) ≤ 2 ^ 31 - 1)) ∧
    ∃ e ∈ pb.GetEntries fullWire.GetWantlist, ∃ c, demoLib.Cast e.GetBlock = .ok c ∧
      demoLib.KeyString c = demoLib.KeyString [1, 2] ∧ (3 : Int) = e.GetPriority) :=
  have hv : ({ Cid := [1, 2], Priority := 2147483648, Cancel := false } : WantView demoLib) ∈
      wants (AddEntry (New false : impl demoLib) [1, 2] 2147483648) :=
    List.mem_singleton.2 rfl
  have hu : ({ Cid := [1, 2], Priority := 3, Cancel := false } : WantView demoLib) ∈
      wants (AddBlock (AddEntry (New true : impl demoLib) [1, 2] 3) (blocks.NewBlock [9])) :=
    List.mem_singleton.2 rfl
  ⟨by decide, hv, rfl, hu,
    priority_cast_is_twos_complement (AddEntry (New false : impl demoLib) [1, 2] 2147483648)
      (by decide) { Cid := [1, 2], Priority := 2147483648, Cancel := false } hv fullWire
      (AddBlock (AddEntry (New true) [1, 2] 3) (blocks.NewBlock [9])) rfl
      { Cid := [1, 2], Priority := 3, Cancel := false } hu⟩

/-! ## Nothing is removed -/

theorem mapSet_length {V : Type} (k : Bytes) (v : V) (l : List (Bytes × V)) :
    l.length ≤ (mapSet k v l).length ∧ (mapSet k v l).length ≤ l.length + 1 := by
  induction l with
  | nil => simp [mapSet]
  | cons a r ih =>
    obtain ⟨k', v'⟩ := a
    by_cases hk : k' = k
    · simp [mapSet, hk]
    · simp only [mapSet, hk, if_false, List.length_cons]
      omega

theorem mapDelete_length {V : Type} (k : Bytes) {l : List (Bytes × V)}
    (hn : (l.map Prod.fst).Nodup) :
    (mapDelete k l).length ≤ l.length ∧ l.length ≤ (mapDelete k l).length + 1 := by
  induction l with
  | nil => simp [mapDelete]
  | cons a r ih =>
    obtain ⟨k', v'⟩ := a
    simp only [List.map_cons, List.nodup_cons] at hn
    have ih' := ih hn.2
    unfold mapDelete at ih' ⊢
    by_cases hk : k' = k
    · have hr : ∀ kv ∈ r, (!decide (kv.1 = k)) = true := by
        intro kv hkv
        have : kv.1 ≠ k := by
          intro e
          apply hn.1
          rw [hk, ← e]
          exact List.mem_map_of_mem Prod.fst hkv
        simp [this]
      have hfr : r.filter (fun kv => !decide (kv.1 = k)) = r := List.filter_eq_self.2 hr
      simp [List.filter_cons, hk, hfr]
    · simp only [List.filter_cons, hk, decide_False, Bool.not_false, if_true, List.length_cons]
      omega

theorem addEntry_keys_mono {L : CidLib} (m : impl L) (c : L.Cid) (p : Int) (b : Bool) {x : Bytes}
    (hx : x ∈ m.wantlist.map Prod.fst) : x ∈ (addEntry m c p b).wantlist.map Prod.fst := by
  cases hg : mapGet (L.KeyString c) m.wantlist with
  | some e => rw [addEntry_of_present hg]; exact hx
  | none =>
    rw [addEntry_of_absent hg]
    simp only [List.map_append, List.mem_append]
    exact Or.inl hx

theorem addEntry_keys_mem {L : CidLib} (m : impl L) (c : L.Cid) (p : Int) (b : Bool) :
    L.KeyString c ∈ (addEntry m c p b).wantlist.map Prod.fst := by
  cases hg : mapGet (L.KeyString c) m.wantlist with
  | some e =>
    rw [addEntry_of_present hg]
    exact List.mem_map_of_mem Prod.fst (mapGet_mem hg)
  | none =>
    rw [addEntry_of_absent hg]
    simp

theorem addEntry_length {L : CidLib} (m : impl L) (c : L.Cid) (p : Int) (b : Bool) :
    m.wantlist.length ≤ (addEntry m c p b).wantlist.length ∧
      (addEntry m c p b).wantlist.length ≤ m.wantlist.length + 1 := by
  cases hg : mapGet (L.KeyString c) m.wantlist with
  | some e => rw [addEntry_of_present hg]; simp
  | none => rw [addEntry_of_absent hg]; simp

theorem Cancel_length {L : CidLib} {m : impl L} (hm : Inv m) (c : L.Cid) :
    m.wantlist.length ≤ (Cancel m c).wantlist.length ∧
      (Cancel m c).wantlist.length ≤ m.wantlist.length + 1 := by
  have hd := mapDelete_length (L.KeyString c) hm.1
  unfold Cancel
  rw [addEntry_of_absent (mapGet_mapDelete_self _ _)]
  simp only [List.length_append, List.length_singleton]
  omega

theorem apply_keys_mono {L : CidLib} (m : impl L) (op : Op L) {x : Bytes}
    (hx : x ∈ m.wantlist.map Prod.fst) : x ∈ (op.apply m).wantlist.map Prod.fst := by
  cases op with
  | addEntry k p => exact addEntry_keys_mono m k p false hx
  | addBlock b => exact hx
  | cancel k =>
    by_cases hk : x = L.KeyString k
    · rw [hk]
      exact addEntry_keys_mem _ k 0 true
    · apply addEntry_keys_mono
      show x ∈ (mapDelete (L.KeyString k) m.wantlist).map Prod.fst
      rw [mapDelete_keys]
      simp [List.mem_filter, hk]
      simpa using hx

theorem apply_block_keys_mono {L : CidLib} (m : impl L) (op : Op L) {x : Bytes}
    (hx : x ∈ m.blocks.map Prod.fst) : x ∈ (op.apply m).blocks.map Prod.fst := by
  cases op with
  | addEntry k p =>
    have h : (Op.apply m (Op.addEntry k p)).blocks = m.blocks := (addEntry_blocks m k p false).1
    rw [h]; exact hx
  | cancel k =>
    have h : (Op.apply m (Op.cancel k)).blocks = m.blocks :=
      (addEntry_blocks { m with wantlist := mapDelete (L.KeyString k) m.wantlist } k 0 true).1
    rw [h]; exact hx
  | addBlock b => exact mapSet_keys_mono _ _ hx

theorem apply_lengths {L : CidLib} {m : impl L} (hm : Inv m) (op : Op L) :
    m.wantlist.length ≤ (op.apply m).wantlist.length ∧
    m.blocks.length ≤ (op.apply m).blocks.length ∧
    (op.apply m).wantlist.length + (op.apply m).blocks.length ≤
      m.wantlist.length + m.blocks.length + 1 := by
  cases op with
  | addEntry k p =>
    have h : (Op.apply m (Op.addEntry k p)).blocks = m.blocks := (addEntry_blocks m k p false).1
    have h1 := addEntry_length m k p false
    simp only [h]
    simp only [Op.apply, AddEntry]
    omega
  | cancel k =>
    have h : (Op.apply m (Op.cancel k)).blocks = m.blocks :=
      (addEntry_blocks { m with wantlist := mapDelete (L.KeyString k) m.wantlist } k 0 true).1
    have h1 := Cancel_length hm k
    simp only [h]
    simp only [Op.apply]
    omega
  | addBlock b =>
    have h1 := mapSet_length (L.KeyString b.Cid) b m.blocks
    simp only [Op.apply, AddBlock]
    omega

theorem run_lengths {L : CidLib} (ops : List (Op L)) {m : impl L} (hm : Inv m) :
    m.wantlist.length ≤ (run ops m).wantlist.length ∧
    m.blocks.length ≤ (run ops m).blocks.length := by
  induction ops generalizing m with
  | nil => exact ⟨le_refl _, le_refl _⟩
  | cons op r ih =>
    have h1 := apply_lengths hm op
    have h2 := ih (Inv_apply hm op)
    have hr : run (op :: r) m = run r (op.apply m) := rfl
    rw [hr]
    omega

theorem Empty_eq_false_iff {L : CidLib} (m : impl L) :
    Empty m = false ↔ 0 < m.wantlist.length + m.blocks.length := by
  unfold Empty
  cases hb : m.blocks.length <;> cases hw : m.wantlist.length <;> simp

/-- C19: for every message satisfying the representation invariant and every call
among `AddEntry`, `Cancel` and `AddBlock`, every ContentID that has a want-list
entry before the call has exactly one entry after it, and every ContentID that has
a stored block before has exactly one after; the lengths of `Wantlist()` and
`Blocks()` do not decrease, together they grow by at most 1, and the same holds
along every sequence of calls, so a non-empty message never becomes empty again. -/
theorem nothing_is_removed {L : CidLib} (m : impl L) (hm : Inv m) (op : Op L) (ops : List (Op L)) :
    (∀ v ∈ wants m, ((wants (op.apply m)).filter (isFor v.Cid)).length = 1) ∧
    (∀ b ∈ Blocks m, ((Blocks (op.apply m)).filter (hasCid b.Cid)).length = 1) ∧
    (Wantlist m).length ≤ (Wantlist (op.apply m)).length ∧
    (Blocks m).length ≤ (Blocks (op.apply m)).length ∧
    (Wantlist (op.apply m)).length + (Blocks (op.apply m)).length ≤
      (Wantlist m).length + (Blocks m).length + 1 ∧
    (Wantlist m).length ≤ (Wantlist (run ops m)).length ∧
    (Blocks m).length ≤ (Blocks (run ops m)).length ∧
    (Empty m = false → Empty (run ops m) = false) := by
  have hm' := Inv_apply hm op
  have hl := apply_lengths hm op
  have hr := run_lengths ops hm
  refine ⟨?_, ?_, ?_, ?_, ?_, ?_, ?_, ?_⟩
  · intro v hv
    have hk : L.KeyString v.Cid ∈ (wants (op.apply m)).map (fun x => L.KeyString x.Cid) := by
      rw [wants_keys hm']
      apply apply_keys_mono
      rw [← wants_keys hm]
      exact List.mem_map_of_mem (fun x => L.KeyString x.Cid) hv
    have hn : ((wants (op.apply m)).map (fun x => L.KeyString x.Cid)).Nodup := by
      rw [wants_keys hm']
      exact hm'.1
    obtain ⟨u, _, hu⟩ := filter_key_singleton _ _ _ hn hk
    have hfun : isFor v.Cid = fun x : WantView L =>
        decide (L.KeyString x.Cid = L.KeyString v.Cid) := rfl
    rw [hfun, hu]
    rfl
  · intro b hb
    have hk : L.KeyString b.Cid ∈ (Blocks (op.apply m)).map (fun x => L.KeyString x.Cid) := by
      rw [Blocks_keys hm']
      apply apply_block_keys_mono
      rw [← Blocks_keys hm]
      exact List.mem_map_of_mem (fun x => L.KeyString x.Cid) hb
    have hn : ((Blocks (op.apply m)).map (fun x => L.KeyString x.Cid)).Nodup := by
      rw [Blocks_keys hm']
      exact hm'.2.2.1
    obtain ⟨u, _, hu⟩ := filter_key_singleton _ _ _ hn hk
    have hfun : hasCid b.Cid = fun x : blocks.Block L =>
        decide (L.KeyString x.Cid = L.KeyString b.Cid) := rfl
    rw [hfun, hu]
    rfl
  · simpa [Wantlist] using hl.1
  · simpa [Blocks] using hl.2.1
  · simpa [Wantlist, Blocks] using hl.2.2
  · simpa [Wantlist] using hr.1
  · simpa [Blocks] using hr.2
  · intro he
    rw [Empty_eq_false_iff] at he ⊢
    omega

/-- Witness for C19: cancelling an id the sample message wants, and the sample calls. -/
theorem nothing_is_removed_witness :
    Inv sampleMsg ∧
    ((∀ v ∈ wants sampleMsg,
      ((wants ((Op.cancel [1, 2] : Op demoLib).apply sampleMsg)).filter (isFor v.Cid)).length = 1) ∧
    (∀ b ∈ Blocks sampleMsg,
      ((Blocks ((Op.cancel [1, 2] : Op demoLib).apply sampleMsg)).filter
        (hasCid b.Cid)).length = 1) ∧
    (Wantlist sampleMsg).length ≤
      (Wantlist ((Op.cancel [1, 2] : Op demoLib).apply sampleMsg)).length ∧
    (Blocks sampleMsg).length ≤
      (Blocks ((Op.cancel [1, 2] : Op demoLib).apply sampleMsg)).length ∧
    (Wantlist ((Op.cancel [1, 2] : Op demoLib).apply sampleMsg)).length +
        (Blocks ((Op.cancel [1, 2] : Op demoLib).apply sampleMsg)).length ≤
      (Wantlist sampleMsg).length + (Blocks sampleMsg).length + 1 ∧
    (Wantlist sampleMsg).length ≤ (Wantlist (run sampleOps sampleMsg)).length ∧
    (Blocks sampleMsg).length ≤ (Blocks (run sampleOps sampleMsg)).length ∧
    (Empty sampleMsg = false → Empty (run sampleOps sampleMsg) = false)) :=
  ⟨by decide, nothing_is_removed sampleMsg (by decide) (Op.cancel [1, 2]) sampleOps⟩

/-! ## Mutations on different ids -/

theorem filter_sub {α : Type} (a q : α → Bool) (hq : ∀ v, q v = true → a v = false)
    (l : List α) : (l.filter (fun v => !a v)).filter q = l.filter q := by
  rw [List.filter_filter]
  apply List.filter_congr
  intro v _
  cases hqv : q v with
  | false => rfl
  | true => simp [hq v hqv]

theorem perm_three_parts {α : Type} (a b : α → Bool) (hdis : ∀ v, b v = true → a v = false)
    (l : List α) :
    l.Perm (l.filter a ++ (l.filter b ++ l.filter (fun v => !a v && !b v))) := by
  have h1 := (List.filter_append_perm a l).symm
  have h2 := (List.filter_append_perm b (l.filter (fun v => !a v))).symm
  have e1 : (l.filter (fun v => !a v)).filter b = l.filter b := filter_sub a b hdis l
  have e2 : (l.filter (fun v => !a v)).filter (fun v => !b v) =
      l.filter (fun v => !a v && !b v) := by
    rw [List.filter_filter]
    apply List.filter_congr
    intro v _
    exact Bool.and_comm _ _
  have h1' : l.Perm (l.filter a ++ l.filter (fun v => !a v)) := by
    refine h1.trans ?_
    apply List.Perm.append_left
    apply List.Perm.of_eq
    apply List.filter_congr
    intro v _
    simp
  rw [e1] at h2
  have h2' : (l.filter (fun v => !a v)).Perm
      (l.filter b ++ l.filter (fun v => !a v && !b v)) := by
    refine h2.trans ?_
    apply List.Perm.append_left
    rw [← e2]
  exact h1'.trans (List.Perm.append_left _ h2')

theorem perm_of_parts {α : Type} (a b : α → Bool) (hdis : ∀ v, b v = true → a v = false)
    (l1 l2 : List α) (ha : l1.filter a = l2.filter a) (hb : l1.filter b = l2.filter b)
    (hr : l1.filter (fun v => !a v && !b v) = l2.filter (fun v => !a v && !b v)) :
    l1.Perm l2 := by
  have h1 := perm_three_parts a b hdis l1
  have h2 := perm_three_parts a b hdis l2
  rw [ha, hb, hr] at h1
  exact h1.trans h2.symm

theorem wants_addEntry_sub {L : CidLib} {m : impl L} (hm : Inv m) (c : L.Cid) (p : Int) (b : Bool)
    (q : WantView L → Bool) (hq : ∀ v, q v = true → isFor c v = false) :
    (wants (addEntry m c p b)).filter q = (wants m).filter q := by
  rw [← filter_sub (isFor c) q hq, wants_addEntry_others hm, filter_sub (isFor c) q hq]

theorem wants_Cancel_sub {L : CidLib} {m : impl L} (hm : Inv m) (c : L.Cid)
    (q : WantView L → Bool) (hq : ∀ v, q v = true → isFor c v = false) :
    (wants (Cancel m c)).filter q = (wants m).filter q := by
  have ht : q ({ Cid := c, Priority := 0, Cancel := true } : WantView L) = false := by
    cases hqt : q ({ Cid := c, Priority := 0, Cancel := true } : WantView L) with
    | false => rfl
    | true =>
      have := hq _ hqt
      simp [isFor] at this
  rw [wants_Cancel hm, List.filter_append, filter_sub (isFor c) q hq]
  simp [List.filter_cons, ht]

theorem wants_Cancel_self {L : CidLib} {m : impl L} (hm : Inv m) (c : L.Cid) :
    (wants (Cancel m c)).filter (isFor c) = [{ Cid := c, Priority := 0, Cancel := true }] := by
  rw [wants_Cancel hm, List.filter_append, List.filter_filter]
  simp [isFor]

theorem wants_addEntry_self_eq {L : CidLib} {m : impl L} (hm : Inv m) (c : L.Cid) (p : Int)
    (b : Bool) :
    (wants (addEntry m c p b)).filter (isFor c) = selfAfter c p b ((wants m).filter (isFor c)) := by
  have hfun : isFor c = fun x : WantView L => decide (L.KeyString x.Cid = L.KeyString c) := rfl
  cases hg : mapGet (L.KeyString c) m.wantlist with
  | some e =>
    have hk : L.KeyString c ∈ (wants m).map (fun v => L.KeyString v.Cid) := by
      rw [wants_keys hm]
      exact List.mem_map_of_mem Prod.fst (mapGet_mem hg)
    have hn : ((wants m).map (fun v => L.KeyString v.Cid)).Nodup := by
      rw [wants_keys hm]
      exact hm.1
    obtain ⟨v, hv1, hv2⟩ := filter_key_singleton _ _ _ hn hk
    rw [wants_addEntry_of_present hm hg, List.filter_map]
    have hcomp : (isFor c ∘ fun v : WantView L =>
        if L.KeyString v.Cid = L.KeyString c then { v with Priority := p } else v) =
        fun x => decide (L.KeyString x.Cid = L.KeyString c) := by
      funext x
      by_cases hx : L.KeyString x.Cid = L.KeyString c <;> simp [isFor, hx]
    rw [hcomp, hfun, hv2]
    simp [selfAfter, hv1]
  | none =>
    have hk : L.KeyString c ∉ (wants m).map (fun v => L.KeyString v.Cid) := by
      rw [wants_keys hm]
      exact (mapGet_eq_none_iff _ _).1 hg
    have h0 := filter_key_eq_nil _ _ _ hk
    rw [wants_addEntry_of_absent hm hg, List.filter_append, hfun, h0]
    simp [selfAfter]

theorem wants_commute {L : CidLib} (X Y : L.Cid) (hxy : L.KeyString X ≠ L.KeyString Y)
    (W1 W2 : impl L → impl L) (G1 G2 : List (WantView L) → List (WantView L))
    (hI1 : ∀ m, Inv m → Inv (W1 m)) (hI2 : ∀ m, Inv m → Inv (W2 m))
    (hS1 : ∀ m, Inv m → (wants (W1 m)).filter (isFor X) = G1 ((wants m).filter (isFor X)))
    (hS2 : ∀ m, Inv m → (wants (W2 m)).filter (isFor Y) = G2 ((wants m).filter (isFor Y)))
    (hO1 : ∀ m, Inv m → ∀ q : WantView L → Bool, (∀ v, q v = true → isFor X v = false) →
      (wants (W1 m)).filter q = (wants m).filter q)
    (hO2 : ∀ m, Inv m → ∀ q : WantView L → Bool, (∀ v, q v = true → isFor Y v = false) →
      (wants (W2 m)).filter q = (wants m).filter q)
    (m : impl L) (hm : Inv m) :
    (wants (W2 (W1 m))).Perm (wants (W1 (W2 m))) := by
  have hYX : ∀ v : WantView L, isFor Y v = true → isFor X v = false := by
    intro v hv
    simp only [isFor, decide_eq_true_eq, decide_eq_false_iff_not] at hv ⊢
    intro hx
    exact hxy (hx.symm.trans hv)
  have hXY : ∀ v : WantView L, isFor X v = true → isFor Y v = false := by
    intro v hv
    simp only [isFor, decide_eq_true_eq, decide_eq_false_iff_not] at hv ⊢
    intro hy
    exact hxy (hv.symm.trans hy)
  have hRX : ∀ v : WantView L, (!isFor X v && !isFor Y v) = true → isFor X v = false := by
    intro v hv
    cases hx : isFor X v with
    | false => rfl
    | true => simp [hx] at hv
  have hRY : ∀ v : WantView L, (!isFor X v && !isFor Y v) = true → isFor Y v = false := by
    intro v hv
    cases hy : isFor Y v with
    | false => rfl
    | true => simp [hy] at hv
  apply perm_of_parts (isFor X) (isFor Y) hYX
  · rw [hO2 _ (hI1 m hm) _ hXY, hS1 m hm, hS1 _ (hI2 m hm), hO2 m hm _ hXY]
  · rw [hS2 _ (hI1 m hm), hO1 m hm _ hYX, hO1 _ (hI2 m hm) _ hYX, hS2 m hm]
  · rw [hO2 _ (hI1 m hm) _ hRY, hO1 m hm _ hRX, hO1 _ (hI2 m hm) _ hRX, hO2 m hm _ hRY]

theorem mapSet_filter_sub {V : Type} (k : Bytes) (v : V) (l : List (Bytes × V))
    (q : Bytes × V → Bool) (hq : ∀ kv, q kv = true → decide (kv.1 = k) = false) :
    (mapSet k v l).filter q = l.filter q := by
  rw [← filter_sub (fun kv => decide (kv.1 = k)) q hq, mapSet_filter_other,
    filter_sub (fun kv => decide (kv.1 = k)) q hq]

theorem mapSet_commute {V : Type} {k1 k2 : Bytes} (h12 : k1 ≠ k2) (v1 v2 : V)
    {l : List (Bytes × V)} (hn : (l.map Prod.fst).Nodup) :
    (mapSet k2 v2 (mapSet k1 v1 l)).Perm (mapSet k1 v1 (mapSet k2 v2 l)) := by
  have h21 : ∀ kv : Bytes × V, decide (kv.1 = k2) = true → decide (kv.1 = k1) = false := by
    intro kv hkv
    simp only [decide_eq_true_eq, decide_eq_false_iff_not] at hkv ⊢
    intro h1
    exact h12 (h1.symm.trans hkv)
  have h12' : ∀ kv : Bytes × V, decide (kv.1 = k1) = true → decide (kv.1 = k2) = false := by
    intro kv hkv
    simp only [decide_eq_true_eq, decide_eq_false_iff_not] at hkv ⊢
    intro h2
    exact h12 (hkv.symm.trans h2)
  have hR1 : ∀ kv : Bytes × V, (!decide (kv.1 = k1) && !decide (kv.1 = k2)) = true →
      decide (kv.1 = k1) = false := by
    intro kv hkv
    cases hx : decide (kv.1 = k1) with
    | false => rfl
    | true => simp [hx] at hkv
  have hR2 : ∀ kv : Bytes × V, (!decide (kv.1 = k1) && !decide (kv.1 = k2)) = true →
      decide (kv.1 = k2) = false := by
    intro kv hkv
    cases hx : decide (kv.1 = k2) with
    | false => rfl
    | true => simp [hx] at hkv
  apply perm_of_parts (fun kv => decide (kv.1 = k1)) (fun kv => decide (kv.1 = k2)) h21
  · rw [mapSet_filter_sub k2 v2 _ _ h12', mapSet_filter_self k1 v1 hn,
      mapSet_filter_self k1 v1 (mapSet_keys_nodup k2 v2 hn)]
  · rw [mapSet_filter_self k2 v2 (mapSet_keys_nodup k1 v1 hn),
      mapSet_filter_sub k1 v1 _ _ h21, mapSet_filter_self k2 v2 hn]
  · rw [mapSet_filter_sub k2 v2 _ _ hR2, mapSet_filter_sub k1 v1 _ _ hR1,
      mapSet_filter_sub k1 v1 _ _ hR1, mapSet_filter_sub k2 v2 _ _ hR2]

/-- C20: for every message satisfying the representation invariant and ids `X` and
`Y` with different KeyStrings, performing an `AddEntry` or `Cancel` on `X` and an
`AddEntry` or `Cancel` on `Y` in either order yields the same want-list contents up
to order (the reported elements are a permutation of each other); and `AddBlock` of
two blocks with different ContentIDs in either order yields the same stored blocks
up to order. -/
theorem mutations_on_different_ids_commute {L : CidLib} (m : impl L) (hm : Inv m)
    (X Y : L.Cid) (hxy : L.KeyString X ≠ L.KeyString Y) (p q : Int)
    (b1 b2 : blocks.Block L) (hb : L.KeyString b1.Cid ≠ L.KeyString b2.Cid) :
    (wants (AddEntry (AddEntry m X p) Y q)).Perm (wants (AddEntry (AddEntry m Y q) X p)) ∧
    (wants (Cancel (AddEntry m X p) Y)).Perm (wants (AddEntry (Cancel m Y) X p)) ∧
    (wants (Cancel (Cancel m X) Y)).Perm (wants (Cancel (Cancel m Y) X)) ∧
    (Blocks (AddBlock (AddBlock m b1) b2)).Perm (Blocks (AddBlock (AddBlock m b2) b1)) := by
  refine ⟨?_, ?_, ?_, ?_⟩
  · exact wants_commute X Y hxy (fun m => AddEntry m X p) (fun m => AddEntry m Y q)
      (selfAfter X p false) (selfAfter Y q false)
      (fun m h => Inv_AddEntry h X p) (fun m h => Inv_AddEntry h Y q)
      (fun m h => wants_addEntry_self_eq h X p false)
      (fun m h => wants_addEntry_self_eq h Y q false)
      (fun m h => wants_addEntry_sub h X p false)
      (fun m h => wants_addEntry_sub h Y q false) m hm
  · exact wants_commute X Y hxy (fun m => AddEntry m X p) (fun m => Cancel m Y)
      (selfAfter X p false) (fun _ => [{ Cid := Y, Priority := 0, Cancel := true }])
      (fun m h => Inv_AddEntry h X p) (fun m h => Inv_Cancel h Y)
      (fun m h => wants_addEntry_self_eq h X p false)
      (fun m h => wants_Cancel_self h Y)
      (fun m h => wants_addEntry_sub h X p false)
      (fun m h => wants_Cancel_sub h Y) m hm
  · exact wants_commute X Y hxy (fun m => Cancel m X) (fun m => Cancel m Y)
      (fun _ => [{ Cid := X, Priority := 0, Cancel := true }])
      (fun _ => [{ Cid := Y, Priority := 0, Cancel := true }])
      (fun m h => Inv_Cancel h X) (fun m h => Inv_Cancel h Y)
      (fun m h => wants_Cancel_self h X)
      (fun m h => wants_Cancel_self h Y)
      (fun m h => wants_Cancel_sub h X)
      (fun m h => wants_Cancel_sub h Y) m hm
  · exact (mapSet_commute hb b1 b2 hm.2.2.1).map Prod.snd

/-- Witness for C20 on the sample message: the id `[1, 2]` it wants and the new id
`[5, 6]`, and two blocks with different derived ids. -/
theorem mutations_on_different_ids_commute_witness :
    Inv sampleMsg ∧
    demoLib.KeyString [1, 2] ≠ demoLib.KeyString [5, 6] ∧
    demoLib.KeyString (blocks.NewBlock [7, 8, 9] : blocks.Block demoLib).Cid ≠
      demoLib.KeyString (blocks.NewBlock [5] : blocks.Block demoLib).Cid ∧
    ((wants (AddEntry (AddEntry sampleMsg [1, 2] 4) [5, 6] (-1))).Perm
      (wants (AddEntry (AddEntry sampleMsg [5, 6] (-1)) [1, 2] 4)) ∧
    (wants (Cancel (AddEntry sampleMsg [1, 2] 4) [5, 6])).Perm
      (wants (AddEntry (Cancel sampleMsg [5, 6]) [1, 2] 4)) ∧
    (wants (Cancel (Cancel sampleMsg [1, 2]) [5, 6])).Perm
      (wants (Cancel (Cancel sampleMsg [5, 6]) [1, 2])) ∧
    (Blocks (AddBlock (AddBlock sampleMsg (blocks.NewBlock [7, 8, 9])) (blocks.NewBlock [5]))).Perm
      (Blocks (AddBlock (AddBlock sampleMsg (blocks.NewBlock [5])) (blocks.NewBlock [7, 8, 9])))) :=
  ⟨by decide, by decide, by decide,
    mutations_on_different_ids_commute sampleMsg (by decide) [1, 2] [5, 6] (by decide) 4 (-1)
      (blocks.NewBlock [7, 8, 9]) (blocks.NewBlock [5]) (by decide)⟩

/-! ## Framing -/

/-- C17: `FromNet` reads through a length-delimited reader bounded by
`inet.MessageSizeMax`: for every input stream whose length prefix declares more than
`MessageSizeMax` bytes it returns an error and no message, the stream is left right
after the prefix (the payload is not read) and no payload buffer is allocated; and
whenever the `ReadMsg` of the reader given to `FromPBReader` fails, `FromPBReader`
returns that error and no message, whatever the decoder would do. -/
theorem frame_size_enforced {L : CidLib} (E : NetEnv) (r : Bytes) (length : Nat) (rest : Bytes)
    (hp : readUvarint r = some (length, rest)) (hbig : E.MessageSizeMax < length)
    {σ : Type} (ReadMsg : σ → Except String pb.Message × σ) (s s1 : σ) (err : String)
    (hfail : ReadMsg s = (.error err, s1)) :
    (FromNet E r : (Option (impl L) × Option String) × DelimitedReader) =
      ((none, some "FrameTooLarge"), { r := rest, buf := 0, maxSize := E.MessageSizeMax }) ∧
    (FromPBReader ReadMsg s : (Option (impl L) × Option String) × σ) = ((none, some err), s1) := by
  constructor
  · simp [FromNet, FromPBReader, DelimitedReader.ReadMsg, NewDelimitedReader, hp, hbig]
  · simp [FromPBReader, hfail]

/-- Witness for C17: a stream declaring one byte more than the 8 MiB bound, and a
reader that always fails. -/
theorem frame_size_enforced_witness :
    readUvarint oversizedStream = some (8388609, [1, 2, 3]) ∧
    demoNet.MessageSizeMax < 8388609 ∧
    failingReadMsg 0 = (.error "read failed", 1) ∧
    ((FromNet demoNet oversizedStream : (Option (impl demoLib) × Option String) × DelimitedReader) =
      ((none, some "FrameTooLarge"),
        { r := [1, 2, 3], buf := 0, maxSize := demoNet.MessageSizeMax }) ∧
    (FromPBReader failingReadMsg 0 : (Option (impl demoLib) × Option String) × Nat) =
      ((none, some "read failed"), 1)) :=
  ⟨by decide, by decide, rfl,
    frame_size_enforced demoNet oversizedStream 8388609 [1, 2, 3] (by decide) (by decide)
      failingReadMsg 0 1 "read failed" rfl⟩

end Bitswap
